import Mathlib

/-!
# Verification of the hyfetch ASCII-art recoloring engine

This file gives a shallow embedding, in Lean 4, of the core recoloring
pipeline of the `hyfetch` Rust crate (`crates/hyfetch/src/presets.rs`,
`ascii.rs`, `neofetch_util.rs`, `color_util.rs`) and proves properties of
the embedded definitions.

Modelling conventions:

* A Rust `String`/`&str` is modelled as `List Char`, where each list element
  stands for one extended grapheme cluster (all characters relevant to the
  placeholder/escape machinery are ASCII, and ASCII characters are single
  clusters, so `graphemes(true).count()` is `List.length`, and byte offsets
  into the scanned segments coincide with list indices).
* Fallible Rust code returning `anyhow::Result<T>` is modelled as
  `Except String T`; a possible panic (`expect`, `unwrap`, integer division
  by zero, out-of-range indexing, `unimplemented!`, `unreachable!`) is
  modelled by the `none` case of `Option`, giving `PRes T = Option (Except
  String T)` for code that can both panic and return an error.
* The `aho_corasick` multi-pattern replacement over the six placeholder
  patterns `${c1}`..`${c6}` (all of length 5, pairwise non-overlapping) is
  modelled as a greedy left-to-right scan (`nreplace`), which agrees with
  the crate's standard leftmost non-overlapping match semantics for this
  pattern set.
-/

set_option maxHeartbeats 1000000
set_option maxRecDepth 100000

/-- Characters of a string literal, used to write `List Char` constants. -/
def chars (s : String) : List Char := s.data

/-- Result of Rust code that may panic (`none`) or return
`anyhow::Result` (`some`). -/
abbrev PRes (α : Type) : Type := Option (Except String α)

/-- `Ok` result. -/
def pok {α : Type} (a : α) : PRes α := some (.ok a)

/-- `Err` result. -/
def perr {α : Type} (e : String) : PRes α := some (.error e)

/-- Sequencing of panicking/fallible computations: a panic or error on the
left short-circuits. -/
def pbind {α β : Type} (x : PRes α) (f : α → PRes β) : PRes β :=
  match x with
  | none => none
  | some (.error e) => some (.error e)
  | some (.ok a) => f a

/-- `mapM` for `PRes`, mirroring a Rust `collect::<Result<Vec<_>>>()`
over a fallible closure. -/
def pmapM {α β : Type} (f : α → PRes β) : List α → PRes (List β)
  | [] => pok []
  | a :: as => pbind (f a) fun b => pbind (pmapM f as) fun bs => pok (b :: bs)

/-- Fallible left fold, mirroring a Rust `for` loop mutating an
accumulator with `?`/panic exits. -/
def pfoldlM {α β : Type} (f : β → α → PRes β) : β → List α → PRes β
  | b, [] => pok b
  | b, a :: as => pbind (f b a) fun b' => pfoldlM f b' as

/-- Rust `u8::try_from(n).expect(..)`: panics above 255. -/
def u8OfNat (n : Nat) : PRes Nat :=
  if n ≤ 255 then pok n else none

/-- Rust `a.checked_sub(b).unwrap()`: panics on underflow. -/
def checkedSub (a b : Nat) : PRes Nat :=
  if b ≤ a then pok (a - b) else none

/-! ## The placeholder scanner (`NEOFETCH_COLOR_PATTERNS`, aho-corasick) -/

/-- The placeholder token `${cI}` for slot `I`
(`NEOFETCH_COLOR_PATTERNS` in neofetch_util.rs). -/
def ntok (i : Nat) : List Char :=
  '$' :: '{' :: 'c' :: (Nat.toDigits 10 i ++ ['}'])

/-- The fixed pattern list `["${c1}", ..., "${c6}"]`. -/
def npats : List (List Char) := [ntok 1, ntok 2, ntok 3, ntok 4, ntok 5, ntok 6]

/-- The slot index `i ∈ 1..6` such that `${ci}` is a prefix of `l`,
if any: one step of the aho-corasick scan. -/
def startsTok (l : List Char) : Option Nat :=
  (List.range' 1 6).find? fun i => (ntok i).isPrefixOf l

/-- `AhoCorasick::replace_all` over the six placeholder patterns with a
replacement per slot: greedy left-to-right scan, skipping the 5 characters
of a matched token (a match guarantees at least five characters remain,
so the one-level fallback arm is unreachable and written only to keep the
recursion structural). -/
def nreplace (repl : Nat → List Char) : List Char → List Char
  | [] => []
  | c :: rest =>
    match startsTok (c :: rest) with
    | some i =>
      match rest with
      | _ :: _ :: _ :: _ :: rest' => repl i ++ nreplace repl rest'
      | _ => repl i
    | none => c :: nreplace repl rest

/-- Strips all placeholder tokens (`ac.replace_all(asc, &["", ..., ""])`). -/
def stripAll (l : List Char) : List Char := nreplace (fun _ => []) l

/-- The slot of the last placeholder match on a line
(`matches.last()` in `fill_starting`). -/
def lastTokSlot : List Char → Option Nat
  | [] => none
  | c :: rest =>
    match startsTok (c :: rest) with
    | some i =>
      match rest with
      | _ :: _ :: _ :: _ :: rest' =>
        match lastTokSlot rest' with
        | some j => some j
        | none => some i
      | _ => some i
    | none => lastTokSlot rest

/-- Whether the scan finds any placeholder match on the line. -/
def hasTok (l : List Char) : Bool := (lastTokSlot l).isSome

/-- All placeholder matches of a line as `(byte position, slot)` pairs,
in scan order (`ac.find_iter(line)`); positions are absolute, starting
at `p`. -/
def scanToks : List Char → Nat → List (Nat × Nat)
  | [], _ => []
  | c :: rest, p =>
    match startsTok (c :: rest) with
    | some i =>
      match rest with
      | _ :: _ :: _ :: _ :: rest' => (p, i) :: scanToks rest' (p + 5)
      | _ => [(p, i)]
    | none => scanToks rest (p + 1)

/-- The `fill_starting` per-line test: the first placeholder match exists
and everything before it is `' '` (`m.start() == 0 ||
line[0..m.start()].trim_end_matches(' ').is_empty()`). -/
def startsOkB : List Char → Bool
  | [] => false
  | c :: rest =>
    if (startsTok (c :: rest)).isSome then true
    else if c = ' ' then startsOkB rest
    else false

/-! ## Line splitting (`str::split('\n')`, `str::lines`, `join("\n")`) -/

/-- Rust `str::split('\n')`: always returns at least one (possibly empty)
piece. -/
def splitNl : List Char → List (List Char)
  | [] => [[]]
  | c :: rest =>
    if c = '\n' then [] :: splitNl rest
    else
      match splitNl rest with
      | h :: t => (c :: h) :: t
      | [] => [[c]]

/-- Rust `join("\n")`. -/
def joinNl : List (List Char) → List Char
  | [] => []
  | [l] => l
  | l :: ls => l ++ '\n' :: joinNl ls

/-- Strip one trailing `'\r'` (part of `str::lines` semantics). -/
def stripCr (l : List Char) : List Char :=
  if l.getLast? = some '\r' then l.dropLast else l

/-- Rust `str::lines()`: split on `'\n'`, drop a final empty piece, strip a
trailing `'\r'` from each line. -/
def strLines (s : List Char) : List (List Char) :=
  (match splitNl s with
   | p => if p.getLast? = some [] then p.dropLast else p).map stripCr

/-! ## Color model (`color_util.rs`) -/

/-- Rendering mode (`types.rs::AnsiMode`). -/
inductive AnsiMode : Type
  | ansi16
  | ansi256
  | rgb
deriving DecidableEq, Repr

/-- Terminal theme (`types.rs::TerminalTheme`). -/
inductive TerminalTheme : Type
  | light
  | dark
deriving DecidableEq, Repr

/-- Foreground/background role (`color_util.rs::ForegroundBackground`). -/
inductive ForegroundBackground : Type
  | foreground
  | background
deriving DecidableEq, Repr

/-- An 8-bit RGB triple (`palette::Srgb<u8>`); the components are `Nat`s
kept in `0..=255` by construction at all call sites. -/
structure Color : Type where
  r : Nat
  g : Nat
  b : Nat
deriving DecidableEq, Repr

/-- Modelled from the spec: the standard xterm-256 downsampling used by the
external `ansi_colours` crate's `rgb.to_ansi256()` (not part of this
repository); the spec treats it as "a well-known standard mapping ...
a well-defined, swappable external conversion, not bespoke logic".
Greyscale inputs map onto the grayscale ramp, others onto the 6×6×6 cube. -/
def ansi256OfRgb (c : Color) : Nat :=
  if c.r = c.g ∧ c.g = c.b then
    if c.r < 8 then 16
    else if 248 < c.r then 231
    else 232 + (c.r - 8) / 10
  else
    let q : Nat → Nat := fun v => if v < 48 then 0 else if v < 115 then 1 else (v - 35) / 40
    16 + 36 * q c.r + 6 * q c.g + q c.b

/-- Decimal digits of a number, as written by Rust's `format!`. -/
def natChars (n : Nat) : List Char := Nat.toDigits 10 n

/-- `ToAnsiString::to_ansi_string` for `Srgb<u8>` (`color_util.rs`):
`ESC[{38|48};2;r;g;bm` in truecolor mode, `ESC[{38|48};5;{index}m` in
256-color mode; `unimplemented!()` (a panic) in 16-color mode. -/
def toAnsiString (c : Color) (mode : AnsiMode) (fgbg : ForegroundBackground) :
    PRes (List Char) :=
  let code : Nat := match fgbg with
    | .foreground => 38
    | .background => 48
  match mode with
  | .rgb =>
    pok (chars "\x1b[" ++ natChars code ++ chars ";2;" ++ natChars c.r ++
      [';'] ++ natChars c.g ++ [';'] ++ natChars c.b ++ ['m'])
  | .ansi256 =>
    pok (chars "\x1b[" ++ natChars code ++ chars ";5;" ++ natChars (ansi256OfRgb c) ++ ['m'])
  | .ansi16 => none

/-- The `MINECRAFT_COLORS` pattern/escape table (`color_util.rs`). -/
def mcTable : List (List Char × List Char) :=
  [ (chars "&0", chars "\x1b[38;5;0m"), (chars "&1", chars "\x1b[38;5;4m"),
    (chars "&2", chars "\x1b[38;5;2m"), (chars "&3", chars "\x1b[38;5;6m"),
    (chars "&4", chars "\x1b[38;5;1m"), (chars "&5", chars "\x1b[38;5;5m"),
    (chars "&6", chars "\x1b[38;5;3m"), (chars "&7", chars "\x1b[38;5;7m"),
    (chars "&8", chars "\x1b[38;5;8m"), (chars "&9", chars "\x1b[38;5;12m"),
    (chars "&a", chars "\x1b[38;5;10m"), (chars "&b", chars "\x1b[38;5;14m"),
    (chars "&c", chars "\x1b[38;5;9m"), (chars "&d", chars "\x1b[38;5;13m"),
    (chars "&e", chars "\x1b[38;5;11m"), (chars "&f", chars "\x1b[38;5;15m"),
    (chars "&l", chars "\x1b[1m"), (chars "&o", chars "\x1b[3m"),
    (chars "&n", chars "\x1b[4m"), (chars "&k", chars "\x1b[8m"),
    (chars "&m", chars "\x1b[9m"), (chars "&r", chars "\x1b[0m"),
    (chars "&-", chars "\n"), (chars "&~", chars "\x1b[39m"),
    (chars "&*", chars "\x1b[49m"), (chars "&L", chars "\x1b[22m"),
    (chars "&O", chars "\x1b[23m"), (chars "&N", chars "\x1b[24m"),
    (chars "&K", chars "\x1b[28m"), (chars "&M", chars "\x1b[29m") ]

/-- Greedy multi-pattern replacement over a pattern/replacement table of
length-2 patterns (the `AhoCorasick::replace_all` of the Minecraft-code
pass: every `MINECRAFT_COLORS` pattern is `&x`, two characters, and the
patterns are pairwise non-overlapping, so the greedy scan skipping two
characters per match agrees with the crate; the one-character fallback arm
is unreachable). -/
def preplace (pats : List (List Char × List Char)) : List Char → List Char
  | [] => []
  | c :: rest =>
    match pats.find? (fun p => p.1.isPrefixOf (c :: rest)) with
    | some p =>
      match rest with
      | _ :: rest' => p.2 ++ preplace pats rest'
      | [] => p.2
    | none => c :: preplace pats rest

/-- `color_util.rs::color`: Minecraft-code replacement pass.  The source
follows this with a second pass rewriting the RGB patterns `&gf(`/`&gb(`;
that pass is the identity (and the function returns `Ok`) on every input
without those patterns, which covers every call site in the modelled
pipeline (`"&~&*"`, `"&0"`, `"&f"`), so it is omitted here.  The `mode`
argument is kept for signature fidelity; it only parameterizes the omitted
RGB pass. -/
def color (msg : List Char) (_mode : AnsiMode) : List Char :=
  preplace mcTable msg

/-! ## Color profile (`presets.rs`) -/

/-- An ordered, possibly repeating sequence of colors
(`presets.rs::ColorProfile`). -/
structure ColorProfile : Type where
  colors : List Color
deriving DecidableEq, Repr

/-- `ColorProfile::with_weights`: expand `colors[i]` into `weights[i]`
consecutive repeats; `Err` when the lengths mismatch. -/
def withWeights (p : ColorProfile) (weights : List Nat) : PRes ColorProfile :=
  if weights.length ≠ p.colors.length then
    perr "`weights` should have the same number of elements as `colors`"
  else
    pok ⟨(p.colors.zip weights).flatMap fun cw => List.replicate cw.2 cw.1⟩

/-- The border loop of `with_length`: `for border_i in 0..k { weights[border_i]
+= 1; weights[weights_len - border_i - 1] += 1 }`, with `weights_len` the
(loop-invariant) length of the vector. -/
def addBorders (w : List Nat) : Nat → List Nat
  | 0 => w
  | k + 1 =>
    let w' := addBorders w k
    let w'' := w'.set k (w'.getD k 0 + 1)
    w''.set (w''.length - 1 - k) (w''.getD (w''.length - 1 - k) 0 + 1)

/-- `ColorProfile::with_length`: spread the profile to `length` slots.
Panics (`none`) when the color count exceeds `u8` or on the division by a
zero `orig_len`; the `length` argument is a `u8` in the source. -/
def withLength (p : ColorProfile) (length : Nat) : PRes ColorProfile :=
  pbind (u8OfNat p.colors.length) fun origLen =>
  let centerI := origLen / 2
  if origLen = 0 then none
  else
    let repeats := length / origLen
    let weights := List.replicate origLen repeats
    let extras := length % origLen
    let we :=
      if extras % 2 = 1 then (weights.set centerI (weights.getD centerI 0 + 1), extras - 1)
      else (weights, extras)
    withWeights p (addBorders we.1 (we.2 / 2))

/-- The ANSI reset of fg+bg color emitted by `ColorProfile::color_text`. -/
def reset3949 : List Char := chars "\x1b[39;49m"

/-- `ColorProfile::color_text`: spread the profile across the grapheme count
of `txt` and emit one color escape per grapheme (or only at space
boundaries when `space_only`), with a trailing `ESC[39;49m`. -/
def colorText (p : ColorProfile) (txt : List Char) (mode : AnsiMode)
    (fgbg : ForegroundBackground) (spaceOnly : Bool) : PRes (List Char) :=
  pbind (u8OfNat txt.length) fun _ =>
  pbind (withLength p txt.length) fun cp =>
  pbind (colorTextLoop cp.colors txt mode fgbg spaceOnly 0 txt) fun buf =>
  pok (buf ++ reset3949)
where
  /-- The character loop: `full` is the whole grapheme vector (used for the
  `txt[i - 1] == " "` lookback), `i` the current index. -/
  colorTextLoop (colors : List Color) : List Char → AnsiMode →
      ForegroundBackground → Bool → Nat → List Char → PRes (List Char)
    | [], _, _, _, _, _ => pok []
    | gr :: rest, mode, fgbg, spaceOnly, i, full =>
      pbind
        (if spaceOnly = true ∧ gr ≠ ' ' then
          pok ((if 0 < i ∧ full.getD (i - 1) ' ' = ' ' then reset3949 else []) ++ [gr])
        else
          pbind (match colors[i]? with
            | some c => toAnsiString c mode fgbg
            | none => none) fun esc => pok (esc ++ [gr]))
        fun piece =>
      pbind (colorTextLoop colors rest mode fgbg spaceOnly (i + 1) full) fun more =>
      pok (piece ++ more)

/-- `ColorProfile::unique_colors`: first-occurrence-order deduplication
(`IndexSet` collection keeps the first occurrence of each color; `seen`
is the set of colors already inserted). -/
def uniqueColors (p : ColorProfile) : ColorProfile :=
  ⟨dedupFirst [] p.colors⟩
where
  dedupFirst (seen : List Color) : List Color → List Color
    | [] => []
    | c :: rest =>
      if c ∈ seen then dedupFirst seen rest
      else c :: dedupFirst (seen ++ [c]) rest

/-! ## Ascii art (`ascii.rs`, `neofetch_util.rs`) -/

/-- `ascii.rs::NormalizedAsciiArt`: lines of uniform width, plus the
designated foreground/background slot lists (entries are
`NeofetchAsciiIndexedColor`, a ranged `1..=6` integer in the source) and
the `u8` width and height. -/
structure NormalizedAsciiArt : Type where
  lines : List (List Char)
  w : Nat
  h : Nat
  fg : List Nat
  bg : List Nat
deriving DecidableEq, Repr

/-- `ascii.rs::RecoloredAsciiArt`. -/
structure RecoloredAsciiArt : Type where
  lines : List (List Char)
  w : Nat
  h : Nat
deriving DecidableEq, Repr

/-- The recoloring strategy (`neofetch_util.rs::ColorAlignment`); `custom`
carries the slot → unique-palette-index map in iteration order. -/
inductive ColorAlignment : Type
  | horizontal
  | vertical
  | custom (colors : List (Nat × Nat))
deriving DecidableEq, Repr

/-- The line fold of `fill_starting`: `last` is the text of the most recent
placeholder match seen on any earlier line. -/
def fillGo (last : Option (List Char)) : List (List Char) → Except String (List (List Char))
  | [] => .ok []
  | line :: rest =>
    let newLine : Except String (List Char) :=
      if startsOkB line then .ok line
      else
        match last with
        | some t => .ok (t ++ line)
        | none => .error "failed to find neofetch color code from a previous line"
    match newLine with
    | .error e => .error e
    | .ok nl =>
      let last' := match lastTokSlot line with
        | some j => some (ntok j)
        | none => last
      match fillGo last' rest with
      | .error e => .error e
      | .ok out => .ok (nl :: out)

/-- `NormalizedAsciiArt::fill_starting`: prepend the last previously seen
placeholder to lines that do not start with one (allowing a prefix of
spaces); error when none has been seen yet. -/
def fillStarting (art : NormalizedAsciiArt) : Except String NormalizedAsciiArt :=
  match fillGo none art.lines with
  | .error e => .error e
  | .ok lines => .ok { art with lines := lines }

/-- Lift the `Result` of `fill_starting` into the panic-aware monad
(`.context(..)` only rewraps the message). -/
def presOfExcept {α : Type} : Except String α → PRes α
  | .ok a => pok a
  | .error e => perr e

/-- Build the 6-entry replacement vector for the slots listed in `slots`,
replacing `replacements[slot - 1]` by `s` (the `for &fore in fg { ... }` /
`for &back in bg { ... }` loops); `checked_sub(1).unwrap()` and the
indexing panic are modelled, though the source's ranged `1..=6` type makes
them unreachable. -/
def setSlots (init : List (List Char)) (slots : List Nat) (s : List Char) :
    PRes (List (List Char)) :=
  match slots with
  | [] => pok init
  | slot :: rest =>
    pbind (checkedSub slot 1) fun idx =>
    if idx < 6 then setSlots (init.set idx s) rest s else none

/-- Replacement function from a 6-entry replacement vector (slot `i` maps
to entry `i - 1`). -/
def replOfVec (v : List (List Char)) (i : Nat) : List Char := v.getD (i - 1) []

/-- The Horizontal branch with a configured fore/back pair: fill starting
placeholders, statically color the `fg` slots, spread the profile over the
rows for the `bg` slots, replace leftover placeholders by the reset, and
append a reset to every line. -/
def horizFB (art : NormalizedAsciiArt) (profile : ColorProfile) (mode : AnsiMode)
    (theme : TerminalTheme) (reset : List Char) : PRes (List (List Char)) :=
  pbind (presOfExcept (fillStarting art)) fun art' =>
  let fgColor := color (chars (match theme with
    | .light => "&0"
    | .dark => "&f")) mode
  pbind (setSlots npats art.fg fgColor) fun reps1 =>
  let asc1 := nreplace (replOfVec reps1) (joinNl art'.lines)
  pbind (withLength profile art.h) fun cp =>
  pbind (pmapM (fun il : Nat × List Char =>
      pbind (match cp.colors[il.1]? with
        | some c => pok c
        | none => none) fun c =>
      pbind (toAnsiString c mode .foreground) fun bgColor =>
      pbind (setSlots npats art.bg bgColor) fun reps2 =>
      pok (nreplace (replOfVec reps2) il.2))
    (strLines asc1).enum) fun lines2 =>
  let asc2 := nreplace (fun _ => reset) (joinNl lines2)
  pok ((strLines asc2).map fun line => line ++ reset)

/-- One line of the Vertical fore/back walk (the `loop` over
`matches.peekable()`): `ms` are the remaining matches, `off` the
accumulated byte length of consumed placeholders (a `u8` in the source,
`checked_add`-guarded). -/
def vlineGo (line : List Char) (fg bg : List Nat) (colors : List Color)
    (mode : AnsiMode) (theme : TerminalTheme) (reset : List Char) :
    List (Nat × Nat) → Nat → PRes (List Char)
  | [], _ => none
  | (p, i) :: rest, off =>
    pbind (if off + 5 ≤ 255 then pok (off + 5) else none) fun off' =>
    let spanEnd := match rest with
      | [] => line.length
      | (q, _) :: _ => q
    let txt := (line.drop (p + 5)).take (spanEnd - (p + 5))
    pbind
      (if i ∈ fg then
        let fore := color (chars (match theme with
          | .light => "&0"
          | .dark => "&f")) mode
        pok (fore ++ txt ++ reset)
      else if i ∈ bg then
        pbind (checkedSub (p + 5) off') fun a =>
        pbind (checkedSub spanEnd off') fun b =>
        if a ≤ b ∧ b ≤ colors.length then
          colorText ⟨(colors.drop a).take (b - a)⟩ txt mode .foreground false
        else none
      else pok txt)
      fun seg =>
    match rest with
    | [] => pok seg
    | m :: ms =>
      pbind (vlineGo line fg bg colors mode theme reset (m :: ms) off') fun more =>
      pok (seg ++ more)

/-- The Vertical branch with a configured fore/back pair: fill starting
placeholders, spread the profile over the columns, then walk each line's
placeholder-delimited segments. -/
def vertFB (art : NormalizedAsciiArt) (profile : ColorProfile) (mode : AnsiMode)
    (theme : TerminalTheme) (reset : List Char) : PRes (List (List Char)) :=
  pbind (presOfExcept (fillStarting art)) fun art' =>
  pbind (withLength profile art.w) fun cp =>
  pmapM (fun line => vlineGo line art.fg art.bg cp.colors mode theme reset
    (scanToks line 0) 0) art'.lines

/-- The Horizontal/Vertical branch without a fore/back pair: strip all
placeholders, then color per row (Horizontal) or per column (Vertical). -/
def noFB (art : NormalizedAsciiArt) (align : ColorAlignment) (profile : ColorProfile)
    (mode : AnsiMode) (reset : List Char) : PRes (List (List Char)) :=
  let asc := nreplace (fun _ => []) (joinNl art.lines)
  let lines := strLines asc
  match align with
  | .horizontal =>
    pbind (withLength profile art.h) fun cp =>
    pmapM (fun il : Nat × List Char =>
        pbind (match cp.colors[il.1]? with
          | some c => pok c
          | none => none) fun c =>
        pbind (toAnsiString c mode .foreground) fun fore =>
        pok (fore ++ il.2 ++ reset))
      lines.enum
  | .vertical =>
    pmapM (fun line => colorText profile line mode .foreground false) lines
  | .custom _ => none

/-- The Custom branch: fill starting placeholders, then replace each mapped
slot's placeholder by its unique-profile color everywhere (unmapped slots
are removed), and append a reset to every line. -/
def customBranch (art : NormalizedAsciiArt) (customColors : List (Nat × Nat))
    (profile : ColorProfile) (mode : AnsiMode) (reset : List Char) :
    PRes (List (List Char)) :=
  pbind (presOfExcept (fillStarting art)) fun art' =>
  let cp := uniqueColors profile
  pbind
    (pfoldlM (fun (r : List (List Char)) aipi =>
        pbind (checkedSub aipi.1 1) fun idx =>
        pbind (match cp.colors[aipi.2]? with
          | some c => pok c
          | none => none) fun c =>
        pbind (toAnsiString c mode .foreground) fun s =>
        if idx < 6 then pok (r.set idx s) else none)
      (List.replicate 6 ([] : List Char)) customColors)
    fun reps =>
  let asc := nreplace (replOfVec reps) (joinNl art'.lines)
  pok ((strLines asc).map fun line => line ++ reset)

/-- `NormalizedAsciiArt::to_recolored`: dispatch on the alignment and the
presence of fore/back slots, mirroring the source's `match (color_align,
self)` arms. -/
def toRecolored (art : NormalizedAsciiArt) (align : ColorAlignment)
    (profile : ColorProfile) (mode : AnsiMode) (theme : TerminalTheme) :
    PRes RecoloredAsciiArt :=
  let reset := color (chars "&~&*") mode
  pbind
    (match align with
     | .horizontal =>
       if art.fg ≠ [] ∨ art.bg ≠ [] then horizFB art profile mode theme reset
       else noFB art .horizontal profile mode reset
     | .vertical =>
       if art.fg ≠ [] ∨ art.bg ≠ [] then vertFB art profile mode theme reset
       else noFB art .vertical profile mode reset
     | .custom m => customBranch art m profile mode reset)
    fun lines =>
  pok { lines := lines, w := art.w, h := art.h }

/-! ## Size and normalization (`neofetch_util.rs`) -/

/-- `neofetch_util.rs::ascii_size`: strip placeholders, then width = the
maximum grapheme count over the `'\n'`-separated lines and height = the
line count, each converted to `u8` by a panicking `expect`. -/
def asciiSize (asc : List Char) : PRes (Nat × Nat) :=
  let stripped := splitNl (stripAll asc)
  pbind (match (stripped.map List.length).max? with
    | some w => pok w
    | none => none) fun width =>
  pbind (u8OfNat width) fun width =>
  pbind (u8OfNat stripped.length) fun height =>
  pok (width, height)

/-- `neofetch_util.rs::normalize_ascii`: pad every line with spaces to the
common width. -/
def normalizeAscii (asc : List Char) : PRes (List Char) :=
  pbind (asciiSize asc) fun wh =>
  pbind (pmapM (fun line =>
      pbind (asciiSize line) fun lw =>
      pok (line ++ List.replicate (wh.1 - lw.1) ' '))
    (splitNl asc)) fun lines =>
  pok (joinNl lines)

/-! ## Basic lemmas about the panic/error monad -/

theorem pbind_eq_pok_iff {α β : Type} {x : PRes α} {f : α → PRes β} {b : β} :
    pbind x f = pok b ↔ ∃ a, x = pok a ∧ f a = pok b := by
  constructor
  · intro h
    match x with
    | none => exact absurd h (by simp [pbind, pok])
    | some (.error e) =>
      exact absurd h (by simp [pbind, pok])
    | some (.ok a) => exact ⟨a, rfl, h⟩
  · rintro ⟨a, rfl, h⟩
    exact h

theorem pbind_pok {α β : Type} (a : α) (f : α → PRes β) : pbind (pok a) f = f a := rfl

theorem pbind_none_left {α β : Type} (f : α → PRes β) : pbind none f = none := rfl

theorem pbind_perr_left {α β : Type} (e : String) (f : α → PRes β) :
    pbind (perr e) f = perr e := rfl

theorem pmapM_eq_pok {α β : Type} {f : α → PRes β} :
    ∀ {xs : List α} {ys : List β}, pmapM f xs = pok ys →
      ys.length = xs.length ∧ ∀ y ∈ ys, ∃ x ∈ xs, f x = pok y := by
  intro xs
  induction xs with
  | nil =>
    intro ys h
    simp only [pmapM, pok, Option.some.injEq, Except.ok.injEq] at h
    subst h
    simp
  | cons a as ih =>
    intro ys h
    simp only [pmapM] at h
    obtain ⟨b, hb, h2⟩ := pbind_eq_pok_iff.mp h
    obtain ⟨bs, hbs, h3⟩ := pbind_eq_pok_iff.mp h2
    have hys : ys = b :: bs := by
      have := h3
      simp only [pok, Option.some.injEq, Except.ok.injEq] at this
      exact this.symm
    subst hys
    obtain ⟨hlen, hmem⟩ := ih hbs
    refine ⟨by simp [hlen], ?_⟩
    intro y hy
    rcases List.mem_cons.mp hy with rfl | hy2
    · exact ⟨a, by simp, hb⟩
    · obtain ⟨x, hx, hfx⟩ := hmem y hy2
      exact ⟨x, by simp [hx], hfx⟩

/-! ## Scanner lemmas -/

theorem ntok_length {i : Nat} (h : i ∈ List.range' 1 6) : (ntok i).length = 5 := by
  fin_cases h <;> rfl

theorem startsTok_some_spec {l : List Char} {i : Nat} (h : startsTok l = some i) :
    i ∈ List.range' 1 6 ∧ ntok i <+: l := by
  rw [startsTok] at h
  have hmem := List.mem_of_find?_eq_some h
  have hp := List.find?_some h
  simp only [] at hp
  exact ⟨hmem, List.isPrefixOf_iff_prefix.mp hp⟩

theorem startsTok_none_of_head_ne {c : Char} {rest : List Char} (h : c ≠ '$') :
    startsTok (c :: rest) = none := by
  rw [startsTok, List.find?_eq_none]
  intro j _
  simp only [Bool.not_eq_true]
  rw [← Bool.not_eq_true, List.isPrefixOf_iff_prefix]
  rintro ⟨t, ht⟩
  rw [ntok, List.cons_append] at ht
  exact h (List.cons.injEq .. ▸ ht).1.symm

theorem find?_congr_on {α : Type} {p q : α → Bool} :
    ∀ l : List α, (∀ a ∈ l, p a = q a) → l.find? p = l.find? q := by
  intro l h
  induction l with
  | nil => rfl
  | cons a as ih =>
    have ha := h a (by simp)
    rw [List.find?, List.find?, ha]
    cases q a with
    | true => rfl
    | false => exact ih fun x hx => h x (by simp [hx])

theorem isPrefixOf_append_of_le {t l : List Char} (s : List Char) (h : t.length ≤ l.length) :
    t.isPrefixOf (l ++ s) = t.isPrefixOf l := by
  rw [Bool.eq_iff_iff, List.isPrefixOf_iff_prefix, List.isPrefixOf_iff_prefix]
  constructor
  · intro hp
    rw [List.prefix_iff_eq_take] at hp ⊢
    rw [List.take_append_eq_append_take, Nat.sub_eq_zero_of_le h, List.take_zero,
      List.append_nil] at hp
    exact hp
  · intro hp
    exact hp.trans (List.prefix_append l s)

theorem startsTok_append {l : List Char} (s : List Char) (h5 : 5 ≤ l.length) :
    startsTok (l ++ s) = startsTok l := by
  rw [startsTok, startsTok]
  exact find?_congr_on _ fun j hj =>
    isPrefixOf_append_of_le s (by rw [ntok_length hj]; exact h5)

theorem startsTok_ntok {i : Nat} (hi : i ∈ List.range' 1 6) : startsTok (ntok i) = some i := by
  fin_cases hi <;> rfl

theorem startsTok_ntok_append {i : Nat} (r : List Char) (hi : i ∈ List.range' 1 6) :
    startsTok (ntok i ++ r) = some i := by
  rw [startsTok_append r (by rw [ntok_length hi]), startsTok_ntok hi]

theorem space_not_mem_ntok {i : Nat} (hi : i ∈ List.range' 1 6) : ' ' ∉ ntok i := by
  fin_cases hi <;> decide

theorem newline_not_mem_ntok {i : Nat} (hi : i ∈ List.range' 1 6) : '\n' ∉ ntok i := by
  fin_cases hi <;> decide

theorem startsTok_short_spaces {l : List Char} {k : Nat} (h : l.length < 5) :
    startsTok (l ++ List.replicate k ' ') = none := by
  cases hst : startsTok (l ++ List.replicate k ' ') with
  | none => rfl
  | some i =>
    exfalso
    obtain ⟨hi, hp⟩ := startsTok_some_spec hst
    have hlen5 := ntok_length hi
    have hle := hp.length_le
    rw [hlen5, List.length_append, List.length_replicate] at hle
    have htake := List.prefix_iff_eq_take.mp hp
    rw [hlen5, List.take_append_eq_append_take, List.take_of_length_le (by omega),
      List.take_replicate] at htake
    have hmem : ' ' ∈ ntok i := by
      rw [htake]
      refine List.mem_append_right _ ?_
      rw [List.mem_replicate]
      exact ⟨by omega, rfl⟩
    exact space_not_mem_ntok hi hmem

theorem exists_cons_four {c : Char} {rest : List Char} (h5 : 5 ≤ (c :: rest).length) :
    ∃ a b d e r, rest = a :: b :: d :: e :: r := by
  cases rest with
  | nil => simp at h5
  | cons a r =>
    cases r with
    | nil => simp at h5
    | cons b r =>
      cases r with
      | nil => simp at h5
      | cons d r =>
        cases r with
        | nil => simp at h5
        | cons e r => exact ⟨a, b, d, e, r, rfl⟩

theorem startsTok_cons_length {c : Char} {rest : List Char} {i : Nat}
    (h : startsTok (c :: rest) = some i) : 5 ≤ (c :: rest).length := by
  obtain ⟨hi, hp⟩ := startsTok_some_spec h
  have := hp.length_le
  rw [ntok_length hi] at this
  exact this

theorem nreplace_cons_some {repl : Nat → List Char} {c : Char} {rest : List Char} {i : Nat}
    (h : startsTok (c :: rest) = some i) :
    nreplace repl (c :: rest) = repl i ++ nreplace repl (rest.drop 4) := by
  obtain ⟨a, b, d, e, r, rfl⟩ := exists_cons_four (startsTok_cons_length h)
  simp [nreplace, h]

theorem nreplace_cons_none {repl : Nat → List Char} {c : Char} {rest : List Char}
    (h : startsTok (c :: rest) = none) :
    nreplace repl (c :: rest) = c :: nreplace repl rest := by
  simp [nreplace, h]

theorem lastTokSlot_cons_some {c : Char} {rest : List Char} {i : Nat}
    (h : startsTok (c :: rest) = some i) :
    lastTokSlot (c :: rest) =
      match lastTokSlot (rest.drop 4) with
      | some j => some j
      | none => some i := by
  obtain ⟨a, b, d, e, r, rfl⟩ := exists_cons_four (startsTok_cons_length h)
  simp [lastTokSlot, h]

theorem lastTokSlot_cons_none {c : Char} {rest : List Char}
    (h : startsTok (c :: rest) = none) :
    lastTokSlot (c :: rest) = lastTokSlot rest := by
  simp [lastTokSlot, h]

theorem stripAll_nil : stripAll [] = [] := rfl

theorem stripAll_cons_some {c : Char} {rest : List Char} {i : Nat}
    (h : startsTok (c :: rest) = some i) :
    stripAll (c :: rest) = stripAll (rest.drop 4) := by
  rw [stripAll, nreplace_cons_some h]
  rfl

theorem stripAll_cons_none {c : Char} {rest : List Char}
    (h : startsTok (c :: rest) = none) :
    stripAll (c :: rest) = c :: stripAll rest := by
  rw [stripAll, nreplace_cons_none h]
  rfl

theorem stripAll_length_le (l : List Char) : (stripAll l).length ≤ l.length := by
  match l with
  | [] => rfl
  | c :: rest =>
    cases h : startsTok (c :: rest) with
    | some i =>
      rw [stripAll_cons_some h]
      have h2 := stripAll_length_le (rest.drop 4)
      simp only [List.length_drop] at h2
      simp only [List.length_cons]
      omega
    | none =>
      rw [stripAll_cons_none h]
      have h2 := stripAll_length_le rest
      simp only [List.length_cons]
      omega
termination_by l.length
decreasing_by
  all_goals simp only [List.length_cons, List.length_drop]
  all_goals omega

theorem stripAll_of_not_hasTok {l : List Char} (h : hasTok l = false) : stripAll l = l := by
  match l with
  | [] => rfl
  | c :: rest =>
    rw [hasTok] at h
    cases hst : startsTok (c :: rest) with
    | some i =>
      rw [lastTokSlot_cons_some hst] at h
      cases hlast : lastTokSlot (rest.drop 4) <;> simp [hlast] at h
    | none =>
      rw [lastTokSlot_cons_none hst] at h
      rw [stripAll_cons_none hst, stripAll_of_not_hasTok (l := rest) h]
termination_by l.length
decreasing_by
  simp only [List.length_cons]; omega

theorem stripAll_lt_of_hasTok {l : List Char} (h : hasTok l = true) :
    (stripAll l).length < l.length := by
  match l with
  | [] => simp [hasTok, lastTokSlot] at h
  | c :: rest =>
    rw [hasTok] at h
    cases hst : startsTok (c :: rest) with
    | some i =>
      rw [stripAll_cons_some hst]
      have hle := stripAll_length_le (rest.drop 4)
      simp only [List.length_drop] at hle
      simp only [List.length_cons]
      omega
    | none =>
      rw [lastTokSlot_cons_none hst] at h
      rw [stripAll_cons_none hst]
      have := stripAll_lt_of_hasTok (l := rest) h
      simp only [List.length_cons]
      omega
termination_by l.length
decreasing_by
  simp only [List.length_cons]; omega

/-- **C6** (amended).  Stripping all six placeholder tokens is idempotent on
a text exactly when the once-stripped text contains no further placeholder
occurrence; a single replacement pass can expose new tokens (see the
counterexample), so idempotence does not hold unconditionally. -/
theorem c6_strip_idempotent_iff (l : List Char) :
    stripAll (stripAll l) = stripAll l ↔ hasTok (stripAll l) = false := by
  constructor
  · intro heq
    by_contra hne
    have htrue : hasTok (stripAll l) = true := by
      cases h : hasTok (stripAll l)
      · exact absurd h hne
      · rfl
    have := stripAll_lt_of_hasTok htrue
    rw [heq] at this
    exact lt_irrefl _ this
  · exact stripAll_of_not_hasTok

/-- **C6** counterexample: stripping `"${${c1}c1}"` once yields `"${c1}"`,
which a second strip removes, so the strip-all replacement pass is not
idempotent as the claim states. -/
theorem c6_counterexample :
    stripAll (stripAll (chars "${${c1}c1}")) ≠ stripAll (chars "${${c1}c1}") := by
  decide

/-- **C6** witness: the amended equivalence evaluated at `"${c2}ab"`,
whose stripped form is token-free, hence idempotent. -/
theorem c6_witness : stripAll (stripAll (chars "${c2}ab")) = stripAll (chars "${c2}ab") :=
  (c6_strip_idempotent_iff (chars "${c2}ab")).mpr (by decide)

/-! ## Spreading arithmetic (`with_length` / `with_weights`) -/

/-- The weight vector `with_length` builds before handing off to
`with_weights`: base repeats everywhere, the center bumped for an odd
remainder, then the border loop. -/
def spreadWeights (len n : Nat) : List Nat :=
  let repeats := n / len
  let extras := n % len
  if extras % 2 = 1 then
    addBorders ((List.replicate len repeats).set (len / 2) (repeats + 1)) ((extras - 1) / 2)
  else
    addBorders (List.replicate len repeats) (extras / 2)

theorem getD_replicate_lt {r j len : Nat} (h : j < len) :
    (List.replicate len r).getD j 0 = r := by
  rw [List.getD_eq_getElem _ _ (by simpa using h), List.getElem_replicate]

theorem withLength_eq {p : ColorProfile} {n : Nat} (h1 : p.colors.length ≠ 0)
    (h2 : p.colors.length ≤ 255) :
    withLength p n = withWeights p (spreadWeights p.colors.length n) := by
  rw [withLength, u8OfNat, if_pos h2]
  simp only [pbind_pok, if_neg h1, spreadWeights]
  by_cases hpar : n % p.colors.length % 2 = 1
  · rw [if_pos hpar, if_pos hpar]
    have hc : p.colors.length / 2 < p.colors.length := Nat.div_lt_self (by omega) (by omega)
    rw [getD_replicate_lt hc]
  · rw [if_neg hpar, if_neg hpar]

theorem sum_set_getD_add_one :
    ∀ {l : List Nat} {i : Nat}, i < l.length →
      (l.set i (l.getD i 0 + 1)).sum = l.sum + 1 := by
  intro l
  induction l with
  | nil => intro i h; simp at h
  | cons a t ih =>
    intro i h
    cases i with
    | zero => simp [List.getD_cons_zero, List.sum_cons]; omega
    | succ i =>
      simp only [List.set_cons_succ, List.getD_cons_succ, List.sum_cons,
        ih (by simpa using h)]
      omega

theorem addBorders_length (w : List Nat) (k : Nat) : (addBorders w k).length = w.length := by
  induction k with
  | zero => rfl
  | succ k ih => simp [addBorders, List.length_set, ih]

theorem addBorders_sum (w : List Nat) (k : Nat) (hk : k ≤ w.length) :
    (addBorders w k).sum = w.sum + 2 * k := by
  induction k with
  | zero => simp [addBorders]
  | succ k ih =>
    have hlen : (addBorders w k).length = w.length := addBorders_length w k
    have hk1 : k < (addBorders w k).length := by omega
    have hk2 : ((addBorders w k).set k ((addBorders w k).getD k 0 + 1)).length - 1 - k <
        ((addBorders w k).set k ((addBorders w k).getD k 0 + 1)).length := by
      rw [List.length_set]
      omega
    rw [addBorders]
    rw [sum_set_getD_add_one hk2, sum_set_getD_add_one hk1, ih (by omega)]
    ring

theorem getD_set_ge (l : List Nat) (i j : Nat) :
    l.getD j 0 ≤ (l.set i (l.getD i 0 + 1)).getD j 0 := by
  rcases Nat.lt_or_ge j l.length with hj | hj
  · have hj2 : j < (l.set i (l.getD i 0 + 1)).length := by
      rw [List.length_set]; exact hj
    rw [List.getD_eq_getElem _ _ hj, List.getD_eq_getElem _ _ hj2, List.getElem_set]
    by_cases hij : i = j
    · subst hij
      rw [if_pos rfl, List.getD_eq_getElem _ _ hj]
      omega
    · rw [if_neg hij]
  · rw [List.getD_eq_default _ _ hj,
      List.getD_eq_default _ _ (by rw [List.length_set]; exact hj)]

theorem addBorders_getD_ge (w : List Nat) (k j : Nat) :
    w.getD j 0 ≤ (addBorders w k).getD j 0 := by
  induction k with
  | zero => exact le_refl _
  | succ k ih =>
    rw [addBorders]
    exact le_trans ih (le_trans (getD_set_ge _ k j) (getD_set_ge _ _ j))

theorem spreadWeights_length {len : Nat} (n : Nat) :
    (spreadWeights len n).length = len := by
  simp only [spreadWeights]
  by_cases hpar : n % len % 2 = 1
  · rw [if_pos hpar, addBorders_length, List.length_set, List.length_replicate]
  · rw [if_neg hpar, addBorders_length, List.length_replicate]

theorem spreadWeights_sum {len : Nat} (n : Nat) (h : len ≠ 0) :
    (spreadWeights len n).sum = n := by
  have hdm := Nat.div_add_mod n len
  have hmod : n % len < len := Nat.mod_lt _ (by omega)
  have hrep : (List.replicate len (n / len)).sum = len * (n / len) := by
    rw [List.sum_replicate, smul_eq_mul]
  simp only [spreadWeights]
  by_cases hpar : n % len % 2 = 1
  · have hc : len / 2 < len := Nat.div_lt_self (by omega) (by omega)
    have hset := sum_set_getD_add_one (l := List.replicate len (n / len)) (i := len / 2)
      (by simpa using hc)
    rw [getD_replicate_lt hc] at hset
    rw [if_pos hpar, addBorders_sum _ _
      (by rw [List.length_set, List.length_replicate]; omega), hset, hrep]
    omega
  · rw [if_neg hpar, addBorders_sum _ _ (by rw [List.length_replicate]; omega), hrep]
    omega

theorem spreadWeights_ge {len : Nat} (n : Nat) :
    ∀ x ∈ spreadWeights len n, n / len ≤ x := by
  intro x hx
  obtain ⟨j, hj, rfl⟩ := List.mem_iff_getElem.mp hx
  have hlen : (spreadWeights len n).length = len := spreadWeights_length n
  have hjlen : j < len := by omega
  rw [← List.getD_eq_getElem _ 0 hj]
  simp only [spreadWeights] at hj ⊢
  by_cases hpar : n % len % 2 = 1
  · have hc : len / 2 < len := by
      rcases Nat.eq_zero_or_pos len with h0 | h0
      · omega
      · exact Nat.div_lt_self h0 (by omega)
    rw [if_pos hpar]
    have h2 := getD_set_ge (List.replicate len (n / len)) (len / 2) j
    rw [getD_replicate_lt hc, getD_replicate_lt hjlen] at h2
    exact le_trans h2 (addBorders_getD_ge _ _ j)
  · rw [if_neg hpar]
    refine le_trans (le_of_eq (getD_replicate_lt hjlen).symm) (addBorders_getD_ge _ _ j)

theorem withWeights_ok {p : ColorProfile} {w : List Nat} (h : w.length = p.colors.length) :
    withWeights p w = pok ⟨(p.colors.zip w).flatMap fun cw => List.replicate cw.2 cw.1⟩ := by
  rw [withWeights, if_neg (by omega)]

theorem withWeights_ne_none (p : ColorProfile) (w : List Nat) : withWeights p w ≠ none := by
  rw [withWeights]
  by_cases h : w.length ≠ p.colors.length
  · rw [if_pos h]; exact Option.some_ne_none _
  · rw [if_neg h]; exact Option.some_ne_none _

theorem zip_flatMap_replicate_length :
    ∀ {cs : List Color} {w : List Nat}, cs.length = w.length →
      ((cs.zip w).flatMap fun cw => List.replicate cw.2 cw.1).length = w.sum := by
  intro cs
  induction cs with
  | nil =>
    intro w h
    obtain rfl : w = [] := by
      cases w with
      | nil => rfl
      | cons a as => simp at h
    rfl
  | cons c cs ih =>
    intro w h
    cases w with
    | nil => simp at h
    | cons k w =>
      rw [List.zip_cons_cons, List.flatMap_cons, List.length_append, List.length_replicate,
        List.sum_cons, ih (by simpa using h)]

theorem zip_flatMap_eq_range_flatMap :
    ∀ {cs : List Color} {w : List Nat}, cs.length = w.length →
      ((cs.zip w).flatMap fun cw => List.replicate cw.2 cw.1) =
        (List.range cs.length).flatMap fun i =>
          List.replicate (w.getD i 0) (cs.getD i ⟨0, 0, 0⟩) := by
  intro cs
  induction cs with
  | nil => intro w h; simp
  | cons c cs ih =>
    intro w h
    cases w with
    | nil => simp at h
    | cons k w =>
      rw [List.zip_cons_cons, List.flatMap_cons, List.length_cons, List.range_succ_eq_map,
        List.flatMap_cons, ih (by simpa using h)]
      congr 1
      rw [List.flatMap_map]
      apply List.flatMap_congr
      intro i _
      rfl

/-- **C1**.  For every profile with between 1 and 255 colors and every
target length `n` with `len ≤ n ≤ 255`, `with_length` returns `Ok` and the
resulting profile has exactly `n` colors. -/
theorem c1_with_length_total (p : ColorProfile) (n : Nat) (h1 : 1 ≤ p.colors.length)
    (h2 : p.colors.length ≤ 255) (h3 : p.colors.length ≤ n) (h4 : n ≤ 255) :
    ∃ q, withLength p n = pok q ∧ q.colors.length = n := by
  have hne : p.colors.length ≠ 0 := by omega
  rw [withLength_eq hne h2,
    withWeights_ok (by rw [spreadWeights_length])]
  refine ⟨_, rfl, ?_⟩
  rw [zip_flatMap_replicate_length (by rw [spreadWeights_length]),
    spreadWeights_sum n hne]

/-- **C1** witness: a 2-color profile spread to length 5. -/
theorem c1_witness :
    ∃ q, withLength ⟨[⟨1, 1, 1⟩, ⟨2, 2, 2⟩]⟩ 5 = pok q ∧ q.colors.length = 5 :=
  c1_with_length_total ⟨[⟨1, 1, 1⟩, ⟨2, 2, 2⟩]⟩ 5 (by decide) (by decide) (by decide)
    (by decide)

/-- **C2**.  The remainder of spreading goes center-first, then to the
borders: `[A,B,C]` spread to 4 is `[A,B,B,C]` and to 5 is `[A,A,B,C,C]`;
in general `with_length n` hands `with_weights` a weight vector whose every
entry is at least the base repeat count `n / len`. -/
theorem c2_center_first (a b c : Color) (p : ColorProfile) (n : Nat) :
    withLength ⟨[a, b, c]⟩ 4 = pok ⟨[a, b, b, c]⟩ ∧
    withLength ⟨[a, b, c]⟩ 5 = pok ⟨[a, a, b, c, c]⟩ ∧
    (1 ≤ p.colors.length → p.colors.length ≤ 255 →
      ∃ w, w.length = p.colors.length ∧ (∀ x ∈ w, n / p.colors.length ≤ x) ∧
        withLength p n = withWeights p w) := by
  refine ⟨?_, ?_, fun h1 h2 => ?_⟩
  · have h := withLength_eq (p := ⟨[a, b, c]⟩) (n := 4) (by simp) (by simp)
    rw [show (ColorProfile.colors ⟨[a, b, c]⟩).length = 3 from rfl] at h
    rw [h]
    rfl
  · have h := withLength_eq (p := ⟨[a, b, c]⟩) (n := 5) (by simp) (by simp)
    rw [show (ColorProfile.colors ⟨[a, b, c]⟩).length = 3 from rfl] at h
    rw [h]
    rfl
  · exact ⟨spreadWeights p.colors.length n, spreadWeights_length n, spreadWeights_ge n,
      withLength_eq (by omega) h2⟩

/-- **C2** witness: the general part instantiated at a singleton profile
and target 3, plus the concrete 4-spread. -/
theorem c2_witness :
    withLength ⟨[⟨9, 9, 9⟩, ⟨8, 8, 8⟩, ⟨7, 7, 7⟩]⟩ 4 =
      pok ⟨[⟨9, 9, 9⟩, ⟨8, 8, 8⟩, ⟨8, 8, 8⟩, ⟨7, 7, 7⟩]⟩ ∧
    ∃ w, w.length = 1 ∧ (∀ x ∈ w, 3 / 1 ≤ x) ∧
      withLength ⟨[⟨0, 0, 0⟩]⟩ 3 = withWeights ⟨[⟨0, 0, 0⟩]⟩ w := by
  refine ⟨(c2_center_first ⟨9, 9, 9⟩ ⟨8, 8, 8⟩ ⟨7, 7, 7⟩ ⟨[⟨0, 0, 0⟩]⟩ 3).1, ?_⟩
  have h := (c2_center_first ⟨9, 9, 9⟩ ⟨8, 8, 8⟩ ⟨7, 7, 7⟩ ⟨[⟨0, 0, 0⟩]⟩ 3).2.2
    (by decide) (by decide)
  exact h

/-- **C7**.  `with_weights` errors exactly when the weight count differs
from the color count, and otherwise returns the profile in which
`colors[i]` is repeated `weights[i]` consecutive times, with no clamping or
truncation. -/
theorem c7_with_weights (p : ColorProfile) (w : List Nat) :
    ((∃ e, withWeights p w = perr e) ↔ w.length ≠ p.colors.length) ∧
    (w.length = p.colors.length →
      withWeights p w = pok ⟨(List.range p.colors.length).flatMap fun i =>
        List.replicate (w.getD i 0) (p.colors.getD i ⟨0, 0, 0⟩)⟩) := by
  constructor
  · constructor
    · rintro ⟨e, he⟩
      by_contra hlen
      rw [withWeights, if_neg (show ¬w.length ≠ p.colors.length from fun hne => hne hlen)]
        at he
      exact absurd he (by simp [pok, perr])
    · intro hlen
      exact ⟨_, by rw [withWeights, if_pos hlen]⟩
  · intro hlen
    rw [withWeights_ok hlen, zip_flatMap_eq_range_flatMap hlen.symm]

/-- **C7** witness: equal lengths give the expanded profile; a length-1
weight list against a 1-color profile. -/
theorem c7_witness :
    withWeights ⟨[⟨5, 5, 5⟩]⟩ [3] = pok ⟨(List.range (ColorProfile.colors
      ⟨[⟨5, 5, 5⟩]⟩).length).flatMap fun i =>
        List.replicate ([3].getD i 0) (([⟨5, 5, 5⟩] : List Color).getD i ⟨0, 0, 0⟩)⟩ :=
  (c7_with_weights ⟨[⟨5, 5, 5⟩]⟩ [3]).2 (by decide)

/-- **C8**.  An empty profile makes `with_length` panic (division by zero),
for every target length, rather than returning the `Err` used for weight
mismatches; for a profile with 1..=255 colors and a `u8` target length the
call never panics. -/
theorem c8_empty_profile_panics (p : ColorProfile) (n : Nat) :
    (p.colors = [] → withLength p n = none) ∧
    (1 ≤ p.colors.length → p.colors.length ≤ 255 → n ≤ 255 → withLength p n ≠ none) := by
  constructor
  · intro h
    rw [withLength, u8OfNat]
    rw [h]
    rfl
  · intro h1 h2 _
    rw [withLength_eq (by omega) h2]
    exact withWeights_ne_none _ _

/-- **C8** witness: the empty profile panics at length 7; the singleton
profile does not. -/
theorem c8_witness :
    withLength ⟨[]⟩ 7 = none ∧ withLength ⟨[⟨1, 2, 3⟩]⟩ 7 ≠ none :=
  ⟨(c8_empty_profile_panics ⟨[]⟩ 7).1 rfl,
    (c8_empty_profile_panics ⟨[⟨1, 2, 3⟩]⟩ 7).2 (by decide) (by decide) (by decide)⟩

/-! ## Splitting lemmas -/

theorem splitNl_ne_nil (s : List Char) : splitNl s ≠ [] := by
  cases s with
  | nil => simp [splitNl]
  | cons c rest =>
    rw [splitNl]
    by_cases h : c = '\n'
    · rw [if_pos h]; simp
    · rw [if_neg h]
      cases hs : splitNl rest with
      | nil => simp
      | cons hd tl => simp

theorem splitNl_head_prefix :
    ∀ {s : List Char} {h : List Char} {t : List (List Char)},
      splitNl s = h :: t → h <+: s := by
  intro s
  induction s with
  | nil =>
    intro h t hs
    rw [splitNl] at hs
    obtain ⟨rfl, rfl⟩ : ([] : List Char) = h ∧ ([] : List (List Char)) = t := by
      simpa using hs
    exact List.nil_prefix
  | cons c rest ih =>
    intro h t hs
    rw [splitNl] at hs
    by_cases hc : c = '\n'
    · rw [if_pos hc] at hs
      obtain ⟨rfl, rfl⟩ : ([] : List Char) = h ∧ splitNl rest = t := by simpa using hs
      exact List.nil_prefix
    · rw [if_neg hc] at hs
      cases hrest : splitNl rest with
      | nil => exact absurd hrest (splitNl_ne_nil rest)
      | cons h2 t2 =>
        rw [hrest] at hs
        obtain ⟨rfl, rfl⟩ : c :: h2 = h ∧ t2 = t := by simpa using hs
        obtain ⟨t3, ht3⟩ := ih hrest
        exact ⟨t3, by rw [List.cons_append, ht3]⟩

theorem splitNl_no_newline :
    ∀ {s : List Char}, ∀ line ∈ splitNl s, '\n' ∉ line := by
  intro s
  induction s with
  | nil =>
    intro line hl
    rw [splitNl] at hl
    obtain rfl : line = [] := by simpa using hl
    simp
  | cons c rest ih =>
    intro line hl
    rw [splitNl] at hl
    by_cases hc : c = '\n'
    · rw [if_pos hc] at hl
      rcases List.mem_cons.mp hl with rfl | hl2
      · simp
      · exact ih line hl2
    · rw [if_neg hc] at hl
      cases hrest : splitNl rest with
      | nil => exact absurd hrest (splitNl_ne_nil rest)
      | cons h2 t2 =>
        rw [hrest] at hl
        rcases List.mem_cons.mp hl with rfl | hl2
        · intro hmem
          rcases List.mem_cons.mp hmem with heq | hmem2
          · exact hc heq.symm
          · exact ih h2 (by rw [hrest]; simp) hmem2
        · exact ih line (by rw [hrest]; simp [hl2])

theorem splitNl_of_no_newline {s : List Char} (h : '\n' ∉ s) : splitNl s = [s] := by
  induction s with
  | nil => rfl
  | cons c rest ih =>
    rw [splitNl, if_neg (by intro hc; exact h (by simp [hc]))]
    rw [ih (by intro hm; exact h (by simp [hm]))]

theorem splitNl_append_no_newline :
    ∀ {xs : List Char}, '\n' ∉ xs → ∀ r : List Char,
      splitNl (xs ++ r) =
        (xs ++ (splitNl r).headI) :: (splitNl r).tail := by
  intro xs
  induction xs with
  | nil =>
    intro _ r
    simp only [List.nil_append]
    cases hr : splitNl r with
    | nil => exact absurd hr (splitNl_ne_nil r)
    | cons h t => simp
  | cons c rest ih =>
    intro hnl r
    rw [List.cons_append, splitNl, if_neg (by intro hc; exact hnl (by simp [hc]))]
    rw [ih (by intro hm; exact hnl (by simp [hm])) r]
    simp

theorem splitNl_cons_newline (rest : List Char) :
    splitNl ('\n' :: rest) = [] :: splitNl rest := by
  rw [splitNl, if_pos rfl]

theorem splitNl_cons_other {c : Char} {rest : List Char} (hc : ¬c = '\n')
    {h : List Char} {t : List (List Char)} (hr : splitNl rest = h :: t) :
    splitNl (c :: rest) = (c :: h) :: t := by
  rw [splitNl, if_neg hc, hr]

theorem splitNl_joinNl :
    ∀ {ls : List (List Char)}, ls ≠ [] → (∀ l ∈ ls, '\n' ∉ l) →
      splitNl (joinNl ls) = ls := by
  intro ls
  induction ls with
  | nil => intro h _; exact absurd rfl h
  | cons l ls ih =>
    intro _ hnl
    cases ls with
    | nil =>
      rw [show joinNl [l] = l from rfl]
      exact splitNl_of_no_newline (hnl l (by simp))
    | cons l2 ls2 =>
      rw [show joinNl (l :: l2 :: ls2) = l ++ '\n' :: joinNl (l2 :: ls2) from rfl]
      rw [splitNl_append_no_newline (hnl l (by simp))]
      rw [splitNl_cons_newline]
      rw [ih (by simp) (fun x hx => hnl x (by simp [hx]))]
      simp

/-! ## Strip/split interaction -/

theorem stripAll_replicate_space (k : Nat) :
    stripAll (List.replicate k ' ') = List.replicate k ' ' := by
  induction k with
  | zero => rfl
  | succ k ih =>
    rw [List.replicate_succ, stripAll_cons_none (startsTok_none_of_head_ne (by decide)), ih]

theorem stripAll_append_spaces_aux :
    ∀ (n : Nat) (l : List Char), l.length ≤ n → ∀ (k : Nat),
      stripAll (l ++ List.replicate k ' ') = stripAll l ++ List.replicate k ' ' := by
  intro n
  induction n with
  | zero =>
    intro l hl k
    obtain rfl : l = [] := by
      cases l with
      | nil => rfl
      | cons c r => simp at hl
    rw [List.nil_append, stripAll_nil, List.nil_append]
    exact stripAll_replicate_space k
  | succ n ihn =>
    intro l hl k
    match l with
    | [] =>
      rw [List.nil_append, stripAll_nil, List.nil_append]
      exact stripAll_replicate_space k
    | c :: rest =>
      cases hst : startsTok (c :: rest) with
      | some i =>
        have h5 := startsTok_cons_length hst
        have hst2 : startsTok ((c :: rest) ++ List.replicate k ' ') = some i := by
          rw [startsTok_append _ h5, hst]
        rw [List.cons_append, stripAll_cons_some (by rw [← List.cons_append]; exact hst2),
          stripAll_cons_some hst]
        obtain ⟨a, b, d, e, r, rfl⟩ := exists_cons_four h5
        simp only [List.cons_append, List.drop_succ_cons, List.drop_zero]
        exact ihn r (by simp at hl ⊢; omega) k
      | none =>
        have htail : stripAll (rest ++ List.replicate k ' ') =
            stripAll rest ++ List.replicate k ' ' :=
          ihn rest (by simp at hl ⊢; omega) k
        rcases Nat.lt_or_ge (c :: rest).length 5 with hlt | hge
        · have hst2 : startsTok ((c :: rest) ++ List.replicate k ' ') = none :=
            startsTok_short_spaces hlt
          rw [List.cons_append, stripAll_cons_none (by rw [← List.cons_append]; exact hst2),
            stripAll_cons_none hst, List.cons_append, htail]
        · have hst2 : startsTok ((c :: rest) ++ List.replicate k ' ') = none := by
            rw [startsTok_append _ hge, hst]
          rw [List.cons_append, stripAll_cons_none (by rw [← List.cons_append]; exact hst2),
            stripAll_cons_none hst, List.cons_append, htail]

theorem stripAll_append_spaces (l : List Char) (k : Nat) :
    stripAll (l ++ List.replicate k ' ') = stripAll l ++ List.replicate k ' ' :=
  stripAll_append_spaces_aux l.length l le_rfl k

theorem stripAll_ntok_append {i : Nat} (hi : i ∈ List.range' 1 6) (h2 : List Char) :
    stripAll (ntok i ++ h2) = stripAll h2 := by
  have hlen5 : (ntok i).length = 5 := ntok_length hi
  have hst3 : startsTok (ntok i ++ h2) = some i := startsTok_ntok_append h2 hi
  obtain ⟨c2, rest2, hc2⟩ : ∃ c2 rest2, ntok i ++ h2 = c2 :: rest2 := by
    cases hcc : ntok i ++ h2 with
    | nil =>
      exfalso
      have := congrArg List.length hcc
      rw [List.length_append, hlen5] at this
      simp at this
    | cons c2 rest2 => exact ⟨c2, rest2, rfl⟩
  rw [hc2]
  rw [hc2] at hst3
  rw [stripAll_cons_some hst3]
  congr 1
  have : (c2 :: rest2).drop 5 = h2 := by
    rw [← hc2, List.drop_append_of_le_length (by omega), ← hlen5, List.drop_length,
      List.nil_append]
  simpa using this

theorem splitNl_stripAll_aux :
    ∀ (n : Nat) (s : List Char), s.length ≤ n →
      splitNl (stripAll s) = (splitNl s).map stripAll := by
  intro n
  induction n with
  | zero =>
    intro s hs
    obtain rfl : s = [] := by
      cases s with
      | nil => rfl
      | cons c r => simp at hs
    rfl
  | succ n ihn =>
    intro s hs
    match s with
    | [] => rfl
    | c :: rest =>
      cases hst : startsTok (c :: rest) with
      | some i =>
        obtain ⟨hi, hp⟩ := startsTok_some_spec hst
        obtain ⟨r, hr⟩ := hp
        have hlen5 : (ntok i).length = 5 := ntok_length hi
        have hnl : '\n' ∉ ntok i := newline_not_mem_ntok hi
        rw [stripAll_cons_some hst]
        have hdrop : rest.drop 4 = r := by
          have hd5 : (c :: rest).drop 5 = r := by
            rw [← hr, List.drop_append_of_le_length (by omega), ← hlen5, List.drop_length,
              List.nil_append]
          simpa using hd5
        rw [hdrop]
        rw [show c :: rest = ntok i ++ r from hr.symm]
        rw [splitNl_append_no_newline hnl]
        cases hsr : splitNl r with
        | nil => exact absurd hsr (splitNl_ne_nil r)
        | cons h2 t2 =>
          have hrlen : r.length + 5 = rest.length + 1 := by
            have := congrArg List.length hr
            rw [List.length_append, hlen5] at this
            simp at this ⊢
            omega
          have ihr := ihn r (by simp at hs; omega)
          rw [hsr] at ihr
          rw [ihr, List.headI, List.tail_cons, List.map_cons, List.map_cons,
            stripAll_ntok_append hi h2]
      | none =>
        by_cases hc : c = '\n'
        · subst hc
          rw [stripAll_cons_none hst, splitNl_cons_newline, splitNl_cons_newline,
            List.map_cons, ihn rest (by simp at hs; omega)]
          rfl
        · rw [stripAll_cons_none hst]
          cases hsr : splitNl rest with
          | nil => exact absurd hsr (splitNl_ne_nil rest)
          | cons h2 t2 =>
            have ihr := ihn rest (by simp at hs; omega)
            rw [hsr, List.map_cons] at ihr
            rw [splitNl_cons_other hc ihr, splitNl_cons_other hc hsr]
            have hpre : h2 <+: rest := splitNl_head_prefix hsr
            have hst2 : startsTok (c :: h2) = none := by
              cases hst3 : startsTok (c :: h2) with
              | none => rfl
              | some j =>
                exfalso
                obtain ⟨hj, hpj⟩ := startsTok_some_spec hst3
                have hpj2 : ntok j <+: c :: rest := by
                  obtain ⟨t3, ht3⟩ := hpre
                  obtain ⟨t4, ht4⟩ := hpj
                  exact ⟨t4 ++ t3, by rw [← List.append_assoc, ht4, List.cons_append, ht3]⟩
                rw [startsTok, List.find?_eq_none] at hst
                exact hst j hj (List.isPrefixOf_iff_prefix.mpr hpj2)
            rw [List.map_cons, stripAll_cons_none hst2]

theorem splitNl_stripAll {s : List Char} :
    splitNl (stripAll s) = (splitNl s).map stripAll :=
  splitNl_stripAll_aux s.length s le_rfl

/-! ## Size and normalization lemmas -/

theorem nat_max?_spec {l : List Nat} {w : Nat} (h : l.max? = some w) :
    w ∈ l ∧ ∀ x ∈ l, x ≤ w :=
  (List.max?_eq_some_iff (fun a => le_refl a) (fun a b => max_choice a b)
    (fun _ _ _ => max_le_iff)).mp h

theorem max?_isSome_of_ne_nil {l : List Nat} (h : l ≠ []) : ∃ w, l.max? = some w := by
  cases hm : l.max? with
  | none => exact absurd (List.max?_eq_none_iff.mp hm) h
  | some w => exact ⟨w, rfl⟩

theorem stripAll_sublist_aux : ∀ (n : Nat) (l : List Char), l.length ≤ n →
    (stripAll l).Sublist l := by
  intro n
  induction n with
  | zero =>
    intro l hl
    obtain rfl : l = [] := by
      cases l with
      | nil => rfl
      | cons c r => simp at hl
    exact List.Sublist.refl _
  | succ n ihn =>
    intro l hl
    match l with
    | [] => exact List.Sublist.refl _
    | c :: rest =>
      cases hst : startsTok (c :: rest) with
      | some i =>
        rw [stripAll_cons_some hst]
        refine List.Sublist.trans ?_ (List.sublist_cons_self c rest)
        refine List.Sublist.trans (ihn (rest.drop 4) ?_) (List.drop_sublist 4 rest)
        simp only [List.length_drop]
        simp only [List.length_cons] at hl
        omega
      | none =>
        rw [stripAll_cons_none hst]
        refine List.Sublist.cons₂ c (ihn rest ?_)
        simp only [List.length_cons] at hl
        omega

theorem stripAll_sublist (l : List Char) : (stripAll l).Sublist l :=
  stripAll_sublist_aux l.length l le_rfl

theorem pmapM_pok_of_forall {α β : Type} {f : α → PRes β} {g : α → β} :
    ∀ {xs : List α}, (∀ x ∈ xs, f x = pok (g x)) → pmapM f xs = pok (xs.map g) := by
  intro xs
  induction xs with
  | nil => intro _; rfl
  | cons a as ih =>
    intro h
    rw [pmapM, h a (by simp), pbind_pok, ih (fun x hx => h x (by simp [hx])), pbind_pok]
    rfl

theorem asciiSize_single_line {line : List Char} (hnl : '\n' ∉ line)
    (hle : (stripAll line).length ≤ 255) :
    asciiSize line = pok ((stripAll line).length, 1) := by
  have hnl2 : '\n' ∉ stripAll line := fun hm => hnl ((stripAll_sublist line).mem hm)
  rw [asciiSize, splitNl_of_no_newline hnl2]
  rw [show (([stripAll line] : List (List Char)).map List.length).max? =
    some (stripAll line).length from rfl]
  rw [pbind_pok, u8OfNat, if_pos hle, pbind_pok]
  rfl

/-- **C9**.  Art dimensions are bounded by panicking conversions, not
returned errors: `ascii_size` panics (`none`) when some placeholder-stripped
line exceeds 255 grapheme clusters or the text has more than 255 lines, and
`color_text` panics when its text exceeds 255 grapheme clusters. -/
theorem c9_dimension_panics (asc : List Char) (p : ColorProfile) (txt : List Char)
    (mode : AnsiMode) (fgbg : ForegroundBackground) (so : Bool) :
    ((∃ line ∈ splitNl (stripAll asc), 255 < line.length) ∨
        255 < (splitNl (stripAll asc)).length →
      asciiSize asc = none) ∧
    (255 < txt.length → colorText p txt mode fgbg so = none) := by
  constructor
  · intro hcond
    rw [asciiSize]
    obtain ⟨w, hw⟩ := max?_isSome_of_ne_nil
      (l := (splitNl (stripAll asc)).map List.length)
      (by simp [splitNl_ne_nil (stripAll asc)])
    rw [hw]
    obtain ⟨hwmem, hwub⟩ := nat_max?_spec hw
    rcases hcond with ⟨line, hline, hlen⟩ | hh
    · have : 255 < w := lt_of_lt_of_le hlen (hwub _ (by
        exact List.mem_map_of_mem List.length hline))
      rw [pbind_pok, u8OfNat, if_neg (by omega)]
      rfl
    · by_cases hw255 : w ≤ 255
      · rw [pbind_pok, u8OfNat, if_pos hw255, pbind_pok, u8OfNat, if_neg (by omega)]
        rfl
      · rw [pbind_pok, u8OfNat, if_neg hw255]
        rfl
  · intro hlen
    rw [colorText, u8OfNat, if_neg (by omega)]
    rfl

/-- **C9** witness: a 256-character line makes `ascii_size` panic, and a
256-grapheme text makes `color_text` panic. -/
theorem c9_witness :
    asciiSize (List.replicate 256 'x') = none ∧
    colorText ⟨[]⟩ (List.replicate 256 'x') .rgb .foreground false = none :=
  ⟨(c9_dimension_panics (List.replicate 256 'x') ⟨[]⟩ (List.replicate 256 'x')
      .rgb .foreground false).1 (Or.inl (by decide)),
    (c9_dimension_panics (List.replicate 256 'x') ⟨[]⟩ (List.replicate 256 'x')
      .rgb .foreground false).2 (by decide)⟩

/-- **C5**.  For raw art whose placeholder-stripped lines have at most 255
grapheme clusters and at most 255 lines, normalization succeeds and
afterwards every line has the same placeholder-ignoring width, equal to the
width component of `ascii_size` on the original text. -/
theorem c5_width_invariant (asc : List Char)
    (hw : ∀ line ∈ splitNl (stripAll asc), line.length ≤ 255)
    (hh : (splitNl (stripAll asc)).length ≤ 255) :
    ∃ out w h, normalizeAscii asc = pok out ∧ asciiSize asc = pok (w, h) ∧
      ∀ line ∈ splitNl out, (stripAll line).length = w := by
  obtain ⟨w, hmax⟩ := max?_isSome_of_ne_nil
    (l := (splitNl (stripAll asc)).map List.length)
    (by simp [splitNl_ne_nil (stripAll asc)])
  obtain ⟨hwmem, hwub⟩ := nat_max?_spec hmax
  have hw255 : w ≤ 255 := by
    obtain ⟨line, hlmem, rfl⟩ := List.mem_map.mp hwmem
    exact hw line hlmem
  have hsize : asciiSize asc = pok (w, (splitNl (stripAll asc)).length) := by
    rw [asciiSize, hmax, pbind_pok, u8OfNat, if_pos hw255, pbind_pok, u8OfNat,
      if_pos hh, pbind_pok]
  have hline : ∀ line ∈ splitNl asc, asciiSize line = pok ((stripAll line).length, 1) := by
    intro line hl
    refine asciiSize_single_line (splitNl_no_newline line hl) ?_
    refine hw (stripAll line) ?_
    rw [splitNl_stripAll]
    exact List.mem_map_of_mem _ hl
  have hmapM : pmapM (fun line =>
        pbind (asciiSize line) fun lw =>
          pok (line ++ List.replicate ((w, (splitNl (stripAll asc)).length).1 - lw.1) ' '))
      (splitNl asc) =
      pok ((splitNl asc).map fun line =>
        line ++ List.replicate (w - (stripAll line).length) ' ') := by
    refine pmapM_pok_of_forall ?_
    intro line hl
    rw [hline line hl, pbind_pok]
  refine ⟨joinNl ((splitNl asc).map fun line =>
      line ++ List.replicate (w - (stripAll line).length) ' '),
    w, (splitNl (stripAll asc)).length, ?_, hsize, ?_⟩
  · rw [normalizeAscii, hsize, pbind_pok, hmapM, pbind_pok]
  · have hnlg : ∀ l ∈ (splitNl asc).map fun line =>
        line ++ List.replicate (w - (stripAll line).length) ' ', '\n' ∉ l := by
      intro l hl
      obtain ⟨line, hlmem, rfl⟩ := List.mem_map.mp hl
      intro hm
      rcases List.mem_append.mp hm with h1 | h2
      · exact splitNl_no_newline line hlmem h1
      · exact absurd (List.mem_replicate.mp h2).2 (by decide)
    rw [splitNl_joinNl (by simp [splitNl_ne_nil asc]) hnlg]
    intro line' hl'
    obtain ⟨line, hlmem, rfl⟩ := List.mem_map.mp hl'
    rw [stripAll_append_spaces, List.length_append, List.length_replicate]
    have hlew : (stripAll line).length ≤ w := by
      refine hwub _ ?_
      rw [splitNl_stripAll]
      exact List.mem_map_of_mem _ (List.mem_map_of_mem _ hlmem)
    omega

/-- **C5** witness: the two-line art `"${c1}AB\nC"` normalizes to width 2
with the second line padded. -/
theorem c5_witness :
    ∃ out w h, normalizeAscii (chars "${c1}AB\nC") = pok out ∧
      asciiSize (chars "${c1}AB\nC") = pok (w, h) ∧
      ∀ line ∈ splitNl out, (stripAll line).length = w :=
  c5_width_invariant (chars "${c1}AB\nC") (by decide) (by decide)

/-! ## `fill_starting` lemmas -/

theorem startsOkB_hasTok : ∀ {l : List Char}, startsOkB l = true → hasTok l = true := by
  intro l
  induction l with
  | nil => intro h; simp [startsOkB] at h
  | cons c rest ih =>
    intro h
    rw [startsOkB] at h
    cases hst : startsTok (c :: rest) with
    | some i =>
      rw [hasTok, lastTokSlot_cons_some hst]
      cases lastTokSlot (rest.drop 4) <;> rfl
    | none =>
      rw [hst] at h
      simp only [Option.isSome_none, Bool.false_eq_true, if_false] at h
      by_cases hc : c = ' '
      · rw [if_pos hc] at h
        rw [hasTok, lastTokSlot_cons_none hst]
        exact ih h
      · rw [if_neg hc] at h
        exact absurd h (by simp)

/-- The last placeholder token occurring on any line before index `i`
(`seed` is the value carried in from earlier lines): the reference value
for `fill_starting`'s prepending behavior. -/
def prevTok (seed : Option (List Char)) (ls : List (List Char)) (i : Nat) :
    Option (List Char) :=
  (ls.take i).foldl (fun acc l =>
    match lastTokSlot l with
    | some j => some (ntok j)
    | none => acc) seed

theorem prevTok_zero (seed : Option (List Char)) (ls : List (List Char)) :
    prevTok seed ls 0 = seed := rfl

theorem prevTok_cons_succ (seed : Option (List Char)) (l : List Char)
    (ls : List (List Char)) (i : Nat) :
    prevTok seed (l :: ls) (i + 1) =
      prevTok (match lastTokSlot l with
        | some j => some (ntok j)
        | none => seed) ls i := by
  rw [prevTok, prevTok, List.take_succ_cons, List.foldl_cons]

theorem fillGo_cons (last : Option (List Char)) (line : List Char)
    (rest : List (List Char)) :
    fillGo last (line :: rest) =
      match (if startsOkB line then .ok line
        else match last with
          | some t => .ok (t ++ line)
          | none =>
            .error "failed to find neofetch color code from a previous line" :
          Except String (List Char)) with
      | .error e => .error e
      | .ok nl =>
        match fillGo (match lastTokSlot line with
          | some j => some (ntok j)
          | none => last) rest with
        | .error e => .error e
        | .ok out => .ok (nl :: out) := by
  rw [fillGo.eq_def]

theorem fillGo_some_ok : ∀ (ls : List (List Char)) (t : List Char),
    ∃ out, fillGo (some t) ls = .ok out := by
  intro ls
  induction ls with
  | nil => intro t; exact ⟨[], rfl⟩
  | cons line rest ih =>
    intro t
    rw [fillGo_cons]
    cases hl : lastTokSlot line with
    | some j =>
      obtain ⟨out, hout⟩ := ih (ntok j)
      by_cases hok : startsOkB line
      · rw [if_pos hok]
        rw [hout]
        exact ⟨line :: out, rfl⟩
      · rw [if_neg hok]
        rw [hout]
        exact ⟨(t ++ line) :: out, rfl⟩
    | none =>
      obtain ⟨out, hout⟩ := ih t
      by_cases hok : startsOkB line
      · rw [if_pos hok, hout]
        exact ⟨line :: out, rfl⟩
      · rw [if_neg hok, hout]
        exact ⟨(t ++ line) :: out, rfl⟩

theorem fillGo_ok_spec :
    ∀ (ls : List (List Char)) (seed : Option (List Char)) (out : List (List Char)),
      fillGo seed ls = .ok out →
      out.length = ls.length ∧
      ∀ i (h1 : i < ls.length) (h2 : i < out.length),
        (startsOkB ls[i] = true → out[i] = ls[i]) ∧
        (startsOkB ls[i] = false →
          ∃ t, prevTok seed ls i = some t ∧ out[i] = t ++ ls[i]) := by
  intro ls
  induction ls with
  | nil =>
    intro seed out h
    obtain rfl : out = [] := by
      rw [show fillGo seed [] = .ok [] from rfl] at h
      exact (Except.ok.injEq .. ▸ h).symm
    exact ⟨rfl, fun i h1 => by simp at h1⟩
  | cons line rest ih =>
    intro seed out h
    rw [fillGo_cons] at h
    by_cases hok : startsOkB line
    · rw [if_pos hok] at h
      cases hrec : fillGo (match lastTokSlot line with
          | some j => some (ntok j)
          | none => seed) rest with
      | error e => rw [hrec] at h; exact absurd h (by simp)
      | ok out2 =>
        rw [hrec] at h
        obtain rfl : line :: out2 = out := by simpa using h
        obtain ⟨hlen, hspec⟩ := ih _ _ hrec
        refine ⟨by simp [hlen], ?_⟩
        intro i h1 h2
        cases i with
        | zero =>
          refine ⟨fun _ => rfl, fun hfalse => ?_⟩
          rw [List.getElem_cons_zero] at hfalse
          exact absurd hok (by simp [hfalse])
        | succ i =>
          simp only [List.getElem_cons_succ]
          rw [prevTok_cons_succ]
          exact hspec i (by simpa using h1) (by simpa using h2)
    · rw [if_neg hok] at h
      cases seed with
      | none => exact absurd h (by simp)
      | some t =>
        cases hrec : fillGo (match lastTokSlot line with
            | some j => some (ntok j)
            | none => some t) rest with
        | error e => rw [hrec] at h; exact absurd h (by simp)
        | ok out2 =>
          rw [hrec] at h
          obtain rfl : (t ++ line) :: out2 = out := by simpa using h
          obtain ⟨hlen, hspec⟩ := ih _ _ hrec
          refine ⟨by simp [hlen], ?_⟩
          intro i h1 h2
          cases i with
          | zero =>
            refine ⟨fun htrue => ?_, fun _ => ⟨t, prevTok_zero _ _, rfl⟩⟩
            rw [List.getElem_cons_zero] at htrue
            exact absurd hok (by simp [htrue])
          | succ i =>
            simp only [List.getElem_cons_succ]
            rw [prevTok_cons_succ]
            exact hspec i (by simpa using h1) (by simpa using h2)

theorem fillGo_none_error_iff (ls : List (List Char)) :
    (∃ e, fillGo none ls = .error e) ↔
      ∃ i, ∃ h : i < ls.length, startsOkB ls[i] = false ∧
        ∀ j, j < i → hasTok (ls.getD j []) = false := by
  cases ls with
  | nil =>
    constructor
    · rintro ⟨e, he⟩
      exact absurd he (by simp [fillGo])
    · rintro ⟨i, hi, _⟩
      simp at hi
  | cons line rest =>
    by_cases hok : startsOkB line
    · have hht : hasTok line = true := startsOkB_hasTok hok
      have hslot : ∃ j, lastTokSlot line = some j := by
        rw [hasTok] at hht
        cases hl : lastTokSlot line with
        | none => rw [hl] at hht; simp at hht
        | some j => exact ⟨j, rfl⟩
      obtain ⟨j, hj⟩ := hslot
      constructor
      · rintro ⟨e, he⟩
        rw [fillGo_cons, if_pos hok, hj] at he
        obtain ⟨out, hout⟩ := fillGo_some_ok rest (ntok j)
        rw [hout] at he
        exact absurd he (by simp)
      · rintro ⟨i, hi, hfalse, hprev⟩
        cases i with
        | zero => exact absurd hok (by simp [List.getElem_cons_zero] at hfalse; simp [hfalse])
        | succ i =>
          have := hprev 0 (by omega)
          rw [List.getD_cons_zero] at this
          exact absurd hht (by simp [this])
    · constructor
      · intro _
        exact ⟨0, by simp, by simpa using hok, fun j hj => by omega⟩
      · intro _
        refine ⟨"failed to find neofetch color code from a previous line", ?_⟩
        rw [fillGo_cons, if_neg hok]

/-- **C4** (amended).  `fill_starting` errors exactly when some line neither
begins with a placeholder token — allowing a prefix of spaces (U+0020)
only, not arbitrary whitespace — nor is preceded by any line on which the
scan finds a placeholder; on success, a line already starting with a
placeholder is unchanged and every other line gets the last placeholder
token of the previous lines prepended. -/
theorem c4_fill_starting (art : NormalizedAsciiArt) :
    ((∃ e, fillStarting art = .error e) ↔
      ∃ i, ∃ h : i < art.lines.length, startsOkB art.lines[i] = false ∧
        ∀ j, j < i → hasTok (art.lines.getD j []) = false) ∧
    ∀ art2, fillStarting art = .ok art2 →
      art2.lines.length = art.lines.length ∧
      ∀ i (h1 : i < art.lines.length) (h2 : i < art2.lines.length),
        (startsOkB art.lines[i] = true → art2.lines[i] = art.lines[i]) ∧
        (startsOkB art.lines[i] = false →
          ∃ t, prevTok none art.lines i = some t ∧ art2.lines[i] = t ++ art.lines[i]) := by
  constructor
  · rw [← fillGo_none_error_iff]
    constructor
    · rintro ⟨e, he⟩
      rw [fillStarting] at he
      cases hgo : fillGo none art.lines with
      | error e2 => exact ⟨e2, rfl⟩
      | ok out => rw [hgo] at he; exact absurd he (by simp)
    · rintro ⟨e, he⟩
      refine ⟨e, ?_⟩
      rw [fillStarting, he]
  · intro art2 h
    rw [fillStarting] at h
    cases hgo : fillGo none art.lines with
    | error e => rw [hgo] at h; exact absurd h (by simp)
    | ok out =>
      rw [hgo] at h
      obtain rfl : { art with lines := out } = art2 := by simpa using h
      exact fillGo_ok_spec art.lines none out hgo

/-- The claim's per-line test read literally: a prefix of arbitrary
whitespace before the first placeholder (the code trims only `' '`). -/
def startsOkWS : List Char → Bool
  | [] => false
  | c :: rest =>
    if (startsTok (c :: rest)).isSome then true
    else if c.isWhitespace then startsOkWS rest else false

/-- **C4** counterexample: a line whose placeholder is preceded by a tab is
"starting with a placeholder allowing a whitespace prefix" in the claim's
words, yet `fill_starting` errors on it, so the claim's if-and-only-if is
false at this input. -/
theorem c4_counterexample :
    fillStarting ⟨[chars "\t${c1}X"], 6, 1, [], []⟩ =
      .error "failed to find neofetch color code from a previous line" ∧
    startsOkWS (chars "\t${c1}X") = true := by
  constructor
  · rfl
  · decide

/-- **C4** witness: the amended equivalence applied to a two-line art whose
first line has no placeholder, giving the error. -/
theorem c4_witness :
    ∃ e, fillStarting ⟨[chars "no placeholder", chars "${c1}X"], 14, 2, [], []⟩ =
      .error e :=
  (c4_fill_starting ⟨[chars "no placeholder", chars "${c1}X"], 14, 2, [], []⟩).1.mpr
    ⟨0, by decide, by decide, fun j hj => by omega⟩

theorem lastTokSlot_mem_aux : ∀ (n : Nat) (l : List Char), l.length ≤ n →
    ∀ {j : Nat}, lastTokSlot l = some j → j ∈ List.range' 1 6 := by
  intro n
  induction n with
  | zero =>
    intro l hl j hj
    obtain rfl : l = [] := by
      cases l with
      | nil => rfl
      | cons c r => simp at hl
    exact absurd hj (by simp [lastTokSlot])
  | succ n ihn =>
    intro l hl j hj
    match l with
    | [] => exact absurd hj (by simp [lastTokSlot])
    | c :: rest =>
      cases hst : startsTok (c :: rest) with
      | some i =>
        rw [lastTokSlot_cons_some hst] at hj
        cases hlast : lastTokSlot (rest.drop 4) with
        | some j2 =>
          rw [hlast] at hj
          obtain rfl : j2 = j := by simpa using hj
          refine ihn (rest.drop 4) ?_ hlast
          simp only [List.length_drop]
          simp only [List.length_cons] at hl
          omega
        | none =>
          rw [hlast] at hj
          obtain rfl : i = j := by simpa using hj
          exact (startsTok_some_spec hst).1
      | none =>
        rw [lastTokSlot_cons_none hst] at hj
        refine ihn rest ?_ hj
        simp only [List.length_cons] at hl
        omega

theorem lastTokSlot_mem {l : List Char} {j : Nat} (h : lastTokSlot l = some j) :
    j ∈ List.range' 1 6 :=
  lastTokSlot_mem_aux l.length l le_rfl h

theorem prevTok_shape :
    ∀ (ls : List (List Char)) (i : Nat) (seed : Option (List Char)),
      (seed = none ∨ ∃ j, j ∈ List.range' 1 6 ∧ seed = some (ntok j)) →
      (prevTok seed ls i = none ∨
        ∃ j, j ∈ List.range' 1 6 ∧ prevTok seed ls i = some (ntok j)) := by
  intro ls
  induction ls with
  | nil =>
    intro i seed hseed
    rw [show prevTok seed [] i = seed from by rw [prevTok]; simp]
    exact hseed
  | cons l ls ih =>
    intro i seed hseed
    cases i with
    | zero => rw [prevTok_zero]; exact hseed
    | succ i =>
      rw [prevTok_cons_succ]
      refine ih i _ ?_
      cases hl : lastTokSlot l with
      | some j => exact Or.inr ⟨j, lastTokSlot_mem hl, rfl⟩
      | none => exact hseed

/-- **C10**.  When `fill_starting` succeeds it changes nothing but the
lines that needed a starting placeholder: width, height, the fore/back
slot lists and the line count are unchanged, and each output line is the
input line verbatim or the input line with exactly one placeholder token
prepended. -/
theorem c10_fill_starting_frame (art art2 : NormalizedAsciiArt)
    (h : fillStarting art = .ok art2) :
    art2.w = art.w ∧ art2.h = art.h ∧ art2.fg = art.fg ∧ art2.bg = art.bg ∧
    art2.lines.length = art.lines.length ∧
    ∀ i (h1 : i < art.lines.length) (h2 : i < art2.lines.length),
      art2.lines[i] = art.lines[i] ∨
      ∃ j, j ∈ List.range' 1 6 ∧ art2.lines[i] = ntok j ++ art.lines[i] := by
  rw [fillStarting] at h
  cases hgo : fillGo none art.lines with
  | error e => rw [hgo] at h; exact absurd h (by simp)
  | ok out =>
    rw [hgo] at h
    obtain rfl : { art with lines := out } = art2 := by simpa using h
    obtain ⟨hlen, hspec⟩ := fillGo_ok_spec art.lines none out hgo
    refine ⟨rfl, rfl, rfl, rfl, hlen, ?_⟩
    intro i h1 h2
    by_cases hok : startsOkB art.lines[i]
    · exact Or.inl ((hspec i h1 h2).1 hok)
    · obtain ⟨t, hprev, hout⟩ := (hspec i h1 h2).2 (by simpa using hok)
      rcases prevTok_shape art.lines i none (Or.inl rfl) with hnone | ⟨j, hj, hsome⟩
      · rw [hnone] at hprev; exact absurd hprev (by simp)
      · rw [hsome] at hprev
        obtain rfl : ntok j = t := by simpa using hprev
        exact Or.inr ⟨j, hj, hout⟩

/-- **C10** witness: the frame equalities on a concrete two-line art whose
second line gets `${c1}` prepended. -/
theorem c10_witness :
    (NormalizedAsciiArt.mk [chars "  ${c1}X", chars "${c1}YZ"] 7 2 [2] [3]).w =
      (NormalizedAsciiArt.mk [chars "  ${c1}X", chars "YZ"] 7 2 [2] [3]).w ∧
    (NormalizedAsciiArt.mk [chars "  ${c1}X", chars "${c1}YZ"] 7 2 [2] [3]).lines.length =
      (NormalizedAsciiArt.mk [chars "  ${c1}X", chars "YZ"] 7 2 [2] [3]).lines.length := by
  have h := c10_fill_starting_frame
    (NormalizedAsciiArt.mk [chars "  ${c1}X", chars "YZ"] 7 2 [2] [3])
    (NormalizedAsciiArt.mk [chars "  ${c1}X", chars "${c1}YZ"] 7 2 [2] [3])
    rfl
  exact ⟨h.1, h.2.2.2.2.1⟩

/-! ## Reset-termination lemmas (`to_recolored`) -/

/-- The fg+bg reset emitted at the end of each recolored line,
`color("&~&*", mode)` for every mode. -/
def resetStr : List Char := chars "\x1b[39m\x1b[49m"

theorem color_reset (mode : AnsiMode) : color (chars "&~&*") mode = resetStr := by
  cases mode <;> rfl

theorem suffix_append_left {t l₂ : List Char} (l₁ : List Char) (h : t <:+ l₂) :
    t <:+ l₁ ++ l₂ := by
  obtain ⟨w, rfl⟩ := h
  exact ⟨l₁ ++ w, by rw [List.append_assoc]⟩

theorem colorText_ok_ends {p : ColorProfile} {txt : List Char} {mode : AnsiMode}
    {fgbg : ForegroundBackground} {so : Bool} {s : List Char}
    (h : colorText p txt mode fgbg so = pok s) : reset3949 <:+ s := by
  rw [colorText] at h
  obtain ⟨a, _, h2⟩ := pbind_eq_pok_iff.mp h
  obtain ⟨cp, _, h3⟩ := pbind_eq_pok_iff.mp h2
  obtain ⟨buf, _, h4⟩ := pbind_eq_pok_iff.mp h3
  obtain rfl : buf ++ reset3949 = s := by simpa [pok] using h4
  exact List.suffix_append buf reset3949

theorem horizFB_ends {art : NormalizedAsciiArt} {profile : ColorProfile}
    {mode : AnsiMode} {theme : TerminalTheme} {reset : List Char}
    {ls : List (List Char)}
    (h : horizFB art profile mode theme reset = pok ls) :
    ∀ l ∈ ls, reset <:+ l := by
  rw [horizFB.eq_def] at h
  obtain ⟨a1, _, h2⟩ := pbind_eq_pok_iff.mp h
  obtain ⟨a2, _, h3⟩ := pbind_eq_pok_iff.mp h2
  obtain ⟨a3, _, h4⟩ := pbind_eq_pok_iff.mp h3
  obtain ⟨a4, _, h5⟩ := pbind_eq_pok_iff.mp h4
  obtain rfl : _ = ls := by simpa [pok] using h5
  intro l hl
  obtain ⟨line, _, rfl⟩ := List.mem_map.mp hl
  exact List.suffix_append line reset

theorem customBranch_ends {art : NormalizedAsciiArt} {cc : List (Nat × Nat)}
    {profile : ColorProfile} {mode : AnsiMode} {reset : List Char}
    {ls : List (List Char)}
    (h : customBranch art cc profile mode reset = pok ls) :
    ∀ l ∈ ls, reset <:+ l := by
  rw [customBranch] at h
  obtain ⟨a1, _, h2⟩ := pbind_eq_pok_iff.mp h
  obtain ⟨a2, _, h3⟩ := pbind_eq_pok_iff.mp h2
  obtain rfl : _ = ls := by simpa [pok] using h3
  intro l hl
  obtain ⟨line, _, rfl⟩ := List.mem_map.mp hl
  exact List.suffix_append line reset

theorem noFB_ends {art : NormalizedAsciiArt} {align : ColorAlignment}
    {profile : ColorProfile} {mode : AnsiMode} {reset : List Char}
    {ls : List (List Char)}
    (h : noFB art align profile mode reset = pok ls) :
    ∀ l ∈ ls, reset <:+ l ∨ reset3949 <:+ l := by
  rw [noFB.eq_def] at h
  match align with
  | .horizontal =>
    obtain ⟨cp, _, h2⟩ := pbind_eq_pok_iff.mp h
    obtain ⟨_, hmem⟩ := pmapM_eq_pok h2
    intro l hl
    obtain ⟨x, _, hfx⟩ := hmem l hl
    obtain ⟨c, _, h3⟩ := pbind_eq_pok_iff.mp hfx
    obtain ⟨fore, _, h4⟩ := pbind_eq_pok_iff.mp h3
    obtain rfl : fore ++ x.2 ++ reset = l := by simpa [pok] using h4
    left
    rw [List.append_assoc]
    exact suffix_append_left fore (List.suffix_append x.2 reset)
  | .vertical =>
    obtain ⟨_, hmem⟩ := pmapM_eq_pok h
    intro l hl
    obtain ⟨x, _, hfx⟩ := hmem l hl
    exact Or.inr (colorText_ok_ends hfx)
  | .custom m => exact absurd h (by simp [pok])

theorem vlineGo_single {line : List Char} {fg bg : List Nat} {colors : List Color}
    {mode : AnsiMode} {theme : TerminalTheme} {reset : List Char}
    (p i off : Nat) :
    vlineGo line fg bg colors mode theme reset [(p, i)] off =
      (pbind (if off + 5 ≤ 255 then pok (off + 5) else none) fun off2 =>
      pbind
        (if i ∈ fg then
          pok (color (chars (match theme with
            | .light => "&0"
            | .dark => "&f")) mode ++
            ((line.drop (p + 5)).take (line.length - (p + 5))) ++ reset)
        else if i ∈ bg then
          pbind (checkedSub (p + 5) off2) fun a =>
          pbind (checkedSub line.length off2) fun b =>
          if a ≤ b ∧ b ≤ colors.length then
            colorText ⟨(colors.drop a).take (b - a)⟩
              ((line.drop (p + 5)).take (line.length - (p + 5))) mode .foreground false
          else none
        else pok ((line.drop (p + 5)).take (line.length - (p + 5)))) fun seg =>
      pok seg) := rfl

theorem vlineGo_cons2 {line : List Char} {fg bg : List Nat} {colors : List Color}
    {mode : AnsiMode} {theme : TerminalTheme} {reset : List Char}
    (p i q j : Nat) (ms : List (Nat × Nat)) (off : Nat) :
    vlineGo line fg bg colors mode theme reset ((p, i) :: (q, j) :: ms) off =
      (pbind (if off + 5 ≤ 255 then pok (off + 5) else none) fun off2 =>
      pbind
        (if i ∈ fg then
          pok (color (chars (match theme with
            | .light => "&0"
            | .dark => "&f")) mode ++
            ((line.drop (p + 5)).take (q - (p + 5))) ++ reset)
        else if i ∈ bg then
          pbind (checkedSub (p + 5) off2) fun a =>
          pbind (checkedSub q off2) fun b =>
          if a ≤ b ∧ b ≤ colors.length then
            colorText ⟨(colors.drop a).take (b - a)⟩
              ((line.drop (p + 5)).take (q - (p + 5))) mode .foreground false
          else none
        else pok ((line.drop (p + 5)).take (q - (p + 5)))) fun seg =>
      pbind (vlineGo line fg bg colors mode theme reset ((q, j) :: ms) off2) fun more =>
      pok (seg ++ more)) := rfl

theorem vlineGo_ends {line : List Char} {fg bg : List Nat} {colors : List Color}
    {mode : AnsiMode} {theme : TerminalTheme} {reset : List Char} :
    ∀ {ms : List (Nat × Nat)} {off : Nat} {s : List Char},
      vlineGo line fg bg colors mode theme reset ms off = pok s →
      (∀ p i, ms.getLast? = some (p, i) → i ∈ fg ∨ i ∈ bg) →
      reset <:+ s ∨ reset3949 <:+ s := by
  intro ms
  induction ms with
  | nil =>
    intro off s h _
    exact absurd h (by simp [vlineGo, pok])
  | cons m rest ih =>
    obtain ⟨p, i⟩ := m
    intro off s h hcond
    cases rest with
    | nil =>
      rw [vlineGo_single] at h
      obtain ⟨off2, hoff, h2⟩ := pbind_eq_pok_iff.mp h
      obtain ⟨seg, hseg, h3⟩ := pbind_eq_pok_iff.mp h2
      obtain rfl : seg = s := by simpa [pok] using h3
      by_cases hf : i ∈ fg
      · rw [if_pos hf] at hseg
        left
        obtain rfl : _ = seg := by simpa [pok] using hseg
        first
        | exact List.suffix_append _ reset
        | exact suffix_append_left _ (List.suffix_append _ reset)
      · by_cases hb : i ∈ bg
        · rw [if_neg hf, if_pos hb] at hseg
          obtain ⟨a, _, hseg2⟩ := pbind_eq_pok_iff.mp hseg
          obtain ⟨b, _, hseg3⟩ := pbind_eq_pok_iff.mp hseg2
          by_cases hrange : a ≤ b ∧ b ≤ colors.length
          · rw [if_pos hrange] at hseg3
            exact Or.inr (colorText_ok_ends hseg3)
          · rw [if_neg hrange] at hseg3
            exact absurd hseg3 (by simp [pok])
        · rcases hcond p i rfl with hf2 | hb2
          · exact absurd hf2 hf
          · exact absurd hb2 hb
    | cons m2 ms2 =>
      obtain ⟨q, j⟩ := m2
      rw [vlineGo_cons2] at h
      obtain ⟨off2, hoff, h2⟩ := pbind_eq_pok_iff.mp h
      obtain ⟨seg, hseg, h3⟩ := pbind_eq_pok_iff.mp h2
      obtain ⟨more, hmore, h4⟩ := pbind_eq_pok_iff.mp h3
      obtain rfl : seg ++ more = s := by simpa [pok] using h4
      rcases ih hmore (fun p2 i2 hlast =>
          hcond p2 i2 (by rw [List.getLast?_cons_cons]; exact hlast)) with hend | hend
      · exact Or.inl (suffix_append_left seg hend)
      · exact Or.inr (suffix_append_left seg hend)

theorem vertFB_ends {art : NormalizedAsciiArt} {profile : ColorProfile}
    {mode : AnsiMode} {theme : TerminalTheme} {reset : List Char}
    {ls : List (List Char)}
    (h : vertFB art profile mode theme reset = pok ls)
    (hcond : ∀ art2, fillStarting art = .ok art2 →
      ∀ line ∈ art2.lines, ∀ p i, (scanToks line 0).getLast? = some (p, i) →
        i ∈ art.fg ∨ i ∈ art.bg) :
    ∀ l ∈ ls, reset <:+ l ∨ reset3949 <:+ l := by
  rw [vertFB] at h
  obtain ⟨art2, hfill, h2⟩ := pbind_eq_pok_iff.mp h
  obtain ⟨cp, _, h3⟩ := pbind_eq_pok_iff.mp h2
  have hfill2 : fillStarting art = .ok art2 := by
    rw [presOfExcept.eq_def] at hfill
    cases hf : fillStarting art with
    | error e => rw [hf] at hfill; exact absurd hfill (by simp [pok, perr])
    | ok a =>
      rw [hf] at hfill
      obtain rfl : a = art2 := by simpa [pok] using hfill
      rfl
  obtain ⟨_, hmem⟩ := pmapM_eq_pok h3
  intro l hl
  obtain ⟨line, hline, hfx⟩ := hmem l hl
  exact vlineGo_ends hfx (hcond art2 hfill2 line hline)

/-- **C3** (amended).  Every line of `to_recolored` output ends in a
color-reset escape (`ESC[39mESC[49m`, the `color("&~&*")` reset, or
`ESC[39;49m`, the reset appended by `color_text`) — except that in the
Vertical fore/back branch this holds only when the slot of each line's
last placeholder is among the declared fore/back slots; a trailing segment
owned by any other slot is emitted bare (see the counterexample). -/
theorem c3_reset_terminated (art : NormalizedAsciiArt) (align : ColorAlignment)
    (profile : ColorProfile) (mode : AnsiMode) (theme : TerminalTheme)
    (r : RecoloredAsciiArt)
    (hok : toRecolored art align profile mode theme = pok r)
    (hvert : align = .vertical → (art.fg ≠ [] ∨ art.bg ≠ []) →
      ∀ art2, fillStarting art = .ok art2 →
        ∀ line ∈ art2.lines, ∀ p i, (scanToks line 0).getLast? = some (p, i) →
          i ∈ art.fg ∨ i ∈ art.bg) :
    ∀ line ∈ r.lines, resetStr <:+ line ∨ reset3949 <:+ line := by
  rw [toRecolored.eq_def, color_reset] at hok
  simp only [] at hok
  obtain ⟨lines, hbranch, hmk⟩ := pbind_eq_pok_iff.mp hok
  obtain rfl : ({ lines := lines, w := art.w, h := art.h } : RecoloredAsciiArt) = r := by
    simpa [pok] using hmk
  intro line hl
  cases align with
  | horizontal =>
    replace hbranch :
        (if art.fg ≠ [] ∨ art.bg ≠ [] then horizFB art profile mode theme resetStr
          else noFB art .horizontal profile mode resetStr) = pok lines := hbranch
    by_cases hfb : art.fg ≠ [] ∨ art.bg ≠ []
    · rw [if_pos hfb] at hbranch
      exact Or.inl (horizFB_ends hbranch line hl)
    · rw [if_neg hfb] at hbranch
      exact noFB_ends hbranch line hl
  | vertical =>
    replace hbranch :
        (if art.fg ≠ [] ∨ art.bg ≠ [] then vertFB art profile mode theme resetStr
          else noFB art .vertical profile mode resetStr) = pok lines := hbranch
    by_cases hfb : art.fg ≠ [] ∨ art.bg ≠ []
    · rw [if_pos hfb] at hbranch
      exact vertFB_ends hbranch (hvert rfl hfb) line hl
    · rw [if_neg hfb] at hbranch
      exact noFB_ends hbranch line hl
  | custom m =>
    replace hbranch : customBranch art m profile mode resetStr = pok lines := hbranch
    exact Or.inl (customBranch_ends hbranch line hl)

/-- **C3** counterexample: Vertical alignment with `fg = [1]`, `bg = []`
and art `"${c1}A${c3}B"` recolors successfully, but the trailing segment
belongs to slot 3, which is in neither list, so the single output line ends
with the bare `'B'` and with neither reset escape. -/
theorem c3_counterexample :
    toRecolored ⟨[chars "${c1}A${c3}B"], 2, 1, [1], []⟩ .vertical
        ⟨[⟨255, 0, 0⟩]⟩ .rgb .dark =
      pok ⟨[chars "\x1b[38;5;15mA\x1b[39m\x1b[49mB"], 2, 1⟩ ∧
    List.isSuffixOf resetStr (chars "\x1b[38;5;15mA\x1b[39m\x1b[49mB") = false ∧
    List.isSuffixOf reset3949 (chars "\x1b[38;5;15mA\x1b[39m\x1b[49mB") = false := by
  refine ⟨rfl, by decide, by decide⟩

/-- **C3** witness: the amended theorem applied to a Horizontal recoloring
without fore/back slots, instantiated at its first output line. -/
theorem c3_witness :
    resetStr <:+ chars "\x1b[38;2;255;0;0mAA\x1b[39m\x1b[49m" ∨
    reset3949 <:+ chars "\x1b[38;2;255;0;0mAA\x1b[39m\x1b[49m" :=
  c3_reset_terminated ⟨[chars "AA", chars "BB"], 2, 2, [], []⟩ .horizontal
    ⟨[⟨255, 0, 0⟩, ⟨0, 0, 255⟩]⟩ .rgb .dark
    ⟨[chars "\x1b[38;2;255;0;0mAA\x1b[39m\x1b[49m",
      chars "\x1b[38;2;0;0;255mBB\x1b[39m\x1b[49m"], 2, 2⟩
    rfl (fun h => nomatch h)
    (chars "\x1b[38;2;255;0;0mAA\x1b[39m\x1b[49m") (by simp)

/-! ## Bridging the scan predicates to their plain-language readings -/

/-- `startsOkB` is exactly "the line begins with one of the six placeholder
tokens, allowing a prefix of spaces before the first token". -/
theorem startsOkB_iff (line : List Char) :
    startsOkB line = true ↔
      ∃ k i rest, i ∈ List.range' 1 6 ∧
        line = List.replicate k ' ' ++ (ntok i ++ rest) := by
  constructor
  · intro h
    induction line with
    | nil => simp [startsOkB] at h
    | cons c cs ih =>
      rw [startsOkB] at h
      cases hst : startsTok (c :: cs) with
      | some i =>
        obtain ⟨hi, t, ht⟩ := startsTok_some_spec hst
        exact ⟨0, i, t, hi, by rw [List.replicate_zero, List.nil_append, ht]⟩
      | none =>
        rw [hst] at h
        simp only [Option.isSome_none, Bool.false_eq_true, if_false] at h
        by_cases hc : c = ' '
        · rw [if_pos hc] at h
          obtain ⟨k, i, rest, hi, hcs⟩ := ih h
          exact ⟨k + 1, i, rest, hi, by
            rw [List.replicate_succ, List.cons_append, hcs, hc]⟩
        · rw [if_neg hc] at h
          exact absurd h (by simp)
  · rintro ⟨k, i, rest, hi, rfl⟩
    induction k with
    | zero =>
      rw [List.replicate_zero, List.nil_append]
      have hst : startsTok (ntok i ++ rest) = some i := startsTok_ntok_append rest hi
      obtain ⟨c, cs, hc⟩ : ∃ c cs, ntok i ++ rest = c :: cs := by
        cases hcc : ntok i ++ rest with
        | nil =>
          have := congrArg List.length hcc
          rw [List.length_append, ntok_length hi] at this
          simp at this
        | cons c cs => exact ⟨c, cs, rfl⟩
      rw [hc] at hst
      rw [hc, startsOkB, hst]
      simp
    | succ k ihk =>
      rw [List.replicate_succ, List.cons_append, startsOkB,
        startsTok_none_of_head_ne (by decide)]
      simpa using ihk

/-- `hasTok` is exactly "some placeholder token occurs in the line": the
scan finds a match iff a token is a prefix of some suffix of the line. -/
theorem hasTok_iff (line : List Char) :
    hasTok line = true ↔
      ∃ pos i, i ∈ List.range' 1 6 ∧ ntok i <+: line.drop pos := by
  constructor
  · intro h
    induction line with
    | nil => simp [hasTok, lastTokSlot] at h
    | cons c cs ih =>
      rw [hasTok] at h
      cases hst : startsTok (c :: cs) with
      | some i =>
        obtain ⟨hi, hp⟩ := startsTok_some_spec hst
        exact ⟨0, i, hi, by simpa using hp⟩
      | none =>
        rw [lastTokSlot_cons_none hst] at h
        obtain ⟨pos, i, hi, hp⟩ := ih h
        exact ⟨pos + 1, i, hi, by simpa using hp⟩
  · rintro ⟨pos, i, hi, hp⟩
    induction line generalizing pos with
    | nil =>
      rw [List.drop_nil] at hp
      have := hp.length_le
      rw [ntok_length hi] at this
      simp at this
    | cons c cs ih =>
      cases pos with
      | zero =>
        rw [List.drop_zero] at hp
        have hsome : (startsTok (c :: cs)).isSome := by
          rw [startsTok]
          rw [List.find?_isSome]
          exact ⟨i, hi, List.isPrefixOf_iff_prefix.mpr hp⟩
        rw [hasTok]
        cases hst : startsTok (c :: cs) with
        | none => rw [hst] at hsome; simp at hsome
        | some j =>
          rw [lastTokSlot_cons_some hst]
          cases lastTokSlot (cs.drop 4) <;> rfl
      | succ pos =>
        rw [List.drop_succ_cons] at hp
        have hcs := ih pos hp
        rw [hasTok] at hcs ⊢
        cases hst : startsTok (c :: cs) with
        | some j =>
          rw [lastTokSlot_cons_some hst]
          cases lastTokSlot (cs.drop 4) <;> rfl
        | none =>
          rw [lastTokSlot_cons_none hst]
          exact hcs
